import Mathlib

/-!
# Verification of the rtForth core (`src/core.rs`, `src/memory.rs`)

A shallow embedding of the rtForth virtual machine core in Lean 4.

Conventions used throughout:

* The machine cell is `isize` on a 64-bit platform.  Signed cell values are
  modelled as `Int` together with the explicit wrap `wrap : Int → Int` into
  `[-2^63, 2^63)`; `usize` casts are modelled by `toUnsigned : Int → Nat`
  (value mod `2^64`).
* `u8` stack lengths are modelled as `Nat` with every operation taken
  `% 256`, mirroring `wrapping_add` / `wrapping_sub` on `u8`.
* Stacks are the fixed 256-slot arrays of `core.rs` (`Stack<T>`), modelled as
  a total function `Nat → α` (only indices `0..255` are ever written) plus a
  length and the canary value.
* The data space (`memory.rs`) is a byte arena: a total function `Nat → Nat`
  from offsets to byte values, a `len` (the `here` bump pointer offset) and a
  capacity.  Multi-byte cells are stored little-endian exactly as
  `to_ne_bytes`/`from_ne_bytes` do on a little-endian 64-bit host.
* Operations that `panic!` in the source on arena exhaustion (`compile_*`)
  or that return `Result` (`set_here`) are modelled in the `Option` monad;
  `none` is the panic/error case.
-/

namespace RtForth

/-- Number of bits in a cell (`isize` on the 64-bit platform). -/
def cellBits : Nat := 64

/-- `2 ^ 64`, the number of cell values. -/
def twoPow64 : Int := 2 ^ 64

/-- `isize::max_value()`. -/
def maxI : Int := 2 ^ 63 - 1

/-- `isize::min_value()`. -/
def minI : Int := -(2 ^ 63)

/-- Wrap an integer into the `isize` range `[-2^63, 2^63)` (two's complement). -/
def wrap (x : Int) : Int := (x + 2 ^ 63) % 2 ^ 64 - 2 ^ 63

/-- The `as usize` cast of an `isize` value: its value mod `2^64` as a `Nat`. -/
def toUnsigned (x : Int) : Nat := (x % 2 ^ 64).toNat

theorem wrap_eq_of_mem (x : Int) (h1 : minI ≤ x) (h2 : x ≤ maxI) : wrap x = x := by
  unfold wrap minI maxI at *
  omega

theorem wrap_mem (x : Int) : minI ≤ wrap x ∧ wrap x ≤ maxI := by
  unfold wrap minI maxI
  constructor
  · have := Int.emod_nonneg (x + 2 ^ 63) (b := (2:Int) ^ 64) (by norm_num)
    omega
  · have := Int.emod_lt_of_pos (x + 2 ^ 63) (b := (2:Int) ^ 64) (by norm_num)
    omega

theorem wrap_congr {x y : Int} (h : (2 ^ 64 : Int) ∣ x - y) : wrap x = wrap y := by
  unfold wrap
  obtain ⟨k, hk⟩ := h
  have hx : x + 2 ^ 63 = y + 2 ^ 63 + 2 ^ 64 * k := by omega
  rw [hx, Int.add_mul_emod_self_left]

theorem wrap_add_pow (x : Int) : wrap (x + 2 ^ 64) = wrap x :=
  wrap_congr ⟨1, by ring⟩

theorem wrap_wrap (x : Int) : wrap (wrap x) = wrap x := by
  have := wrap_mem x
  exact wrap_eq_of_mem _ this.1 this.2

theorem wrap_sub_self_dvd (x : Int) : (2 ^ 64 : Int) ∣ wrap x - x :=
  ⟨-((x + 2 ^ 63) / 2 ^ 64), by unfold wrap; omega⟩

theorem sub_wrap_congr (c x : Int) : wrap (c - wrap x) = wrap (c - x) := by
  apply wrap_congr
  obtain ⟨k, hk⟩ := wrap_sub_self_dvd x
  exact ⟨-k, by omega⟩

/-- Pointwise update of a total function, used for array-slot writes. -/
def wr {α : Type} (f : Nat → α) (i : Nat) (v : α) : Nat → α :=
  fun j => if j = i then v else f j

theorem wr_same {α : Type} (f : Nat → α) (i : Nat) (v : α) : wr f i v i = v := by
  simp [wr]

theorem wr_other {α : Type} (f : Nat → α) (i j : Nat) (v : α) (h : j ≠ i) :
    wr f i v j = f j := by
  simp [wr, h]

theorem wr_self {α : Type} (f : Nat → α) (i : Nat) : wr f i (f i) = f := by
  funext j
  by_cases h : j = i <;> simp [wr, h]

/-- The exception codes of `exception.rs` that the modelled core raises. -/
inductive Exc where
  | ABORT
  | UNDEFINED_WORD
  | STACK_OVERFLOW
  | STACK_UNDERFLOW
  | RETURN_STACK_OVERFLOW
  | RETURN_STACK_UNDERFLOW
  | UNEXPECTED_END_OF_FILE
  | UNSUPPORTED_OPERATION
  | CONTROL_STRUCTURE_MISMATCH
  | INVALID_MEMORY_ADDRESS
  | INVALID_NUMERIC_ARGUMENT
  | DIVISION_BY_ZERO
  | INTERPRETING_A_COMPILE_ONLY_WORD
  | FLOATING_POINT_STACK_OVERFLOW
  | FLOATING_POINT_STACK_UNDERFLOW
  deriving DecidableEq, Repr

/-- Compile-time control-flow markers (`enum Control` in `core.rs`). -/
inductive Control where
  | Default
  | Canary
  | If (a : Nat)
  | Else (a : Nat)
  | Begin (a : Nat)
  | While (a : Nat)
  | Do (a b : Nat)
  | Case
  | Of (a : Nat)
  | Endof (a : Nat)
  deriving DecidableEq, Repr

instance : Inhabited Control := ⟨Control.Default⟩

/--
`Stack<T>` of `core.rs`: a 256-slot array, a `u8` length and a canary value.
`inner` is total on `Nat`; the code only ever indexes with `u8` values.
The length is kept as a `Nat` and every length computation is taken `% 256`,
mirroring `u8::wrapping_add` / `u8::wrapping_sub`.
-/
structure Stack (α : Type) where
  inner : Nat → α
  len : Nat
  canary : α

namespace Stack

variable {α : Type}

/-- `Stack::reset`: zero the length and fill all 256 slots with the canary. -/
def reset (s : Stack α) : Stack α :=
  { s with len := 0, inner := fun _ => s.canary }

/-- `Stack::new(canary)` — a freshly reset stack. -/
def fresh (canary : α) : Stack α :=
  { inner := fun _ => canary, len := 0, canary := canary }

/-- `Stack::underflow`: `inner[255] != canary || len > 128`. -/
def underflow [DecidableEq α] (s : Stack α) : Bool :=
  decide (s.inner 255 ≠ s.canary) || decide (128 < s.len)

/-- `Stack::overflow`: `inner[64] != canary || (len > 64 && len <= 128)`. -/
def overflow [DecidableEq α] (s : Stack α) : Bool :=
  decide (s.inner 64 ≠ s.canary) || (decide (64 < s.len) && decide (s.len ≤ 128))

/-- `Stack::push`: `len = len.wrapping_add(1); inner[len.wrapping_sub(1)] = v`. -/
def push (s : Stack α) (v : α) : Stack α :=
  let len := (s.len + 1) % 256
  { s with len := len, inner := wr s.inner ((len + 255) % 256) v }

/-- `Stack::pop`: read `inner[len.wrapping_sub(1)]`, then decrement the length. -/
def pop (s : Stack α) : α × Stack α :=
  (s.inner ((s.len + 255) % 256), { s with len := (s.len + 255) % 256 })

/-- `Stack::push2`. -/
def push2 (s : Stack α) (v1 v2 : α) : Stack α :=
  let len := (s.len + 2) % 256
  { s with len := len,
           inner := wr (wr s.inner ((len + 254) % 256) v1) ((len + 255) % 256) v2 }

/-- `Stack::pop2`: returns `(inner[len-2], inner[len-1])` and drops two. -/
def pop2 (s : Stack α) : (α × α) × Stack α :=
  ((s.inner ((s.len + 254) % 256), s.inner ((s.len + 255) % 256)),
    { s with len := (s.len + 254) % 256 })

/-- `Stack::pop3`: returns `(inner[len-3], inner[len-2], inner[len-1])` and drops three. -/
def pop3 (s : Stack α) : (α × α × α) × Stack α :=
  ((s.inner ((s.len + 253) % 256), s.inner ((s.len + 254) % 256),
    s.inner ((s.len + 255) % 256)),
    { s with len := (s.len + 253) % 256 })

end Stack

/-! ## Data space (`memory.rs`) -/

/-- `BASE_ADDR` of `memory.rs`: the absolute address of the arena start. -/
def BASE_ADDR : Nat := 0x40000000

/-- Read `k` bytes little-endian starting at offset `off` (`from_ne_bytes`). -/
def leGet (m : Nat → Nat) (off : Nat) : Nat → Nat
  | 0 => 0
  | k + 1 => m off + 256 * leGet m (off + 1) k

/-- Write the `k` low-order bytes of `v` little-endian at offset `off`
(`to_ne_bytes` followed by a byte copy). -/
def lePut (m : Nat → Nat) (off v : Nat) : Nat → Nat → Nat
  | 0 => m
  | k + 1 => lePut (wr m off (v % 256)) (off + 1) (v / 256) k

/--
`DataSpace` of `memory.rs`: a byte arena of `cap` bytes.  `mem i` is the byte
at absolute address `BASE_ADDR + i`; `len` is the offset of the `here` bump
pointer.  `start` is `BASE_ADDR`, `limit` is `BASE_ADDR + cap`.
-/
structure DataSpace where
  mem : Nat → Nat
  len : Nat
  cap : Nat

namespace DataSpace

/-- `Memory::start`. -/
def start (_ds : DataSpace) : Nat := BASE_ADDR

/-- `Memory::limit`. -/
def limit (ds : DataSpace) : Nat := BASE_ADDR + ds.cap

/-- `Memory::here`. -/
def here (ds : DataSpace) : Nat := BASE_ADDR + ds.len

/-- `Memory::get_u8`. -/
def get_u8 (ds : DataSpace) (addr : Nat) : Nat := ds.mem (addr - BASE_ADDR)

/-- `Memory::put_u8`. -/
def put_u8 (ds : DataSpace) (v addr : Nat) : DataSpace :=
  { ds with mem := wr ds.mem (addr - BASE_ADDR) (v % 256) }

/-- `Memory::get_usize` (little-endian 8-byte read). -/
def get_usize (ds : DataSpace) (addr : Nat) : Nat :=
  leGet ds.mem (addr - BASE_ADDR) 8

/-- `Memory::put_usize` (little-endian 8-byte write). -/
def put_usize (ds : DataSpace) (v addr : Nat) : DataSpace :=
  { ds with mem := lePut ds.mem (addr - BASE_ADDR) v 8 }

/-- `Memory::get_isize`: an 8-byte read interpreted as two's complement. -/
def get_isize (ds : DataSpace) (addr : Nat) : Int :=
  let u : Int := Int.ofNat (ds.get_usize addr)
  if u < 2 ^ 63 then u else u - 2 ^ 64

/-- `Memory::put_isize`: store the two's-complement bytes of `v`. -/
def put_isize (ds : DataSpace) (v : Int) (addr : Nat) : DataSpace :=
  ds.put_usize (toUnsigned v) addr

/-- `DataSpace::set_here`; `Err(INVALID_MEMORY_ADDRESS)` becomes `none`. -/
def set_here (ds : DataSpace) (pos : Nat) : Option DataSpace :=
  if ds.start ≤ pos ∧ pos ≤ ds.limit then some { ds with len := pos - BASE_ADDR }
  else none

/-- `Memory::truncate` = `set_here`. -/
def truncate (ds : DataSpace) (pos : Nat) : Option DataSpace := ds.set_here pos

/-- `Memory::allot`: bump `here` by a signed amount.  The `as usize` cast of a
negative overshoot produces a huge address, which `set_here` rejects; that
case is `none` here. -/
def allot (ds : DataSpace) (v : Int) : Option DataSpace :=
  let p : Int := Int.ofNat ds.here + v
  if p < 0 then none else ds.set_here p.toNat

/-- `Memory::aligned`: `(pos + align - 1) & align.wrapping_neg()` with
`align = 8`, i.e. round up to a multiple of 8. -/
def aligned (pos : Nat) : Nat := (pos + 7) / 8 * 8

/-- `Memory::align`. -/
def align (ds : DataSpace) : Option DataSpace := ds.set_here (aligned ds.here)

/-- `Memory::compile_u8`; the panic on a full arena is `none`. -/
def compile_u8 (ds : DataSpace) (v : Nat) : Option DataSpace :=
  if ds.here < ds.limit then
    some { ds with mem := wr ds.mem ds.len (v % 256), len := ds.len + 1 }
  else none

/-- `Memory::compile_usize`; the panic on a full arena is `none`. -/
def compile_usize (ds : DataSpace) (v : Nat) : Option DataSpace :=
  if ds.here + 8 ≤ ds.limit then
    some { ds with mem := lePut ds.mem ds.len v 8, len := ds.len + 8 }
  else none

/-- `Memory::compile_isize`. -/
def compile_isize (ds : DataSpace) (v : Int) : Option DataSpace :=
  if ds.here + 8 ≤ ds.limit then
    some { ds with mem := lePut ds.mem ds.len (toUnsigned v) 8, len := ds.len + 8 }
  else none

/-- Write a list of bytes with consecutive `compile_u8` calls. -/
def compileBytes (ds : DataSpace) : List Nat → Option DataSpace
  | [] => some ds
  | b :: rest => do
    let ds' ← ds.compile_u8 b
    ds'.compileBytes rest

/-- `Memory::compile_str`: a length cell followed by the bytes of the name;
returns the new space and the address of the counted string (the old `here`).
The source checks `here + len + size_of::<usize>() <= limit` up front and
panics otherwise (`none` here). -/
def compile_str (ds : DataSpace) (s : List Nat) : Option (DataSpace × Nat) :=
  if ds.here + s.length + 8 ≤ ds.limit then do
    let ds' ← ds.compile_usize s.length
    let ds'' ← ds'.compileBytes s
    some (ds'', ds.here)
  else none

/-- `Memory::get_str`: read the length cell at `addr`, then that many bytes. -/
def get_str (ds : DataSpace) (addr : Nat) : List Nat :=
  let n := ds.get_usize addr
  (List.range n).map fun i => ds.mem (addr + 8 + i - BASE_ADDR)

/-- Compile a list of cells with consecutive `compile_usize` calls. -/
def compileCells (ds : DataSpace) : List Nat → Option DataSpace
  | [] => some ds
  | v :: rest => do
    let ds' ← ds.compile_usize v
    ds'.compileCells rest

end DataSpace

/-! ### Byte-arena lemmas -/

theorem leGet_congr {m1 m2 : Nat → Nat} {off : Nat} (k : Nat)
    (h : ∀ j < k, m1 (off + j) = m2 (off + j)) :
    leGet m1 off k = leGet m2 off k := by
  induction k generalizing off with
  | zero => rfl
  | succ k ih =>
    simp only [leGet]
    rw [show m1 off = m2 off from by simpa using h 0 (Nat.succ_pos k),
      ih fun j hj => by
        have := h (j + 1) (by omega)
        simpa [Nat.add_comm, Nat.add_assoc, Nat.add_left_comm] using this]

theorem lePut_lower {m : Nat → Nat} {off v : Nat} (k : Nat) (j : Nat) (h : j < off) :
    lePut m off v k j = m j := by
  induction k generalizing m off v with
  | zero => rfl
  | succ k ih =>
    simp only [lePut]
    rw [ih (by omega), wr_other _ _ _ _ (by omega)]

theorem lePut_upper {m : Nat → Nat} {off v : Nat} (k : Nat) (j : Nat) (h : off + k ≤ j) :
    lePut m off v k j = m j := by
  induction k generalizing m off v with
  | zero => rfl
  | succ k ih =>
    simp only [lePut]
    rw [ih (by omega), wr_other _ _ _ _ (by omega)]

theorem leGet_lePut_of_le {m : Nat → Nat} {off off' v : Nat} (k k' : Nat)
    (h : off + k ≤ off') :
    leGet (lePut m off' v k') off k = leGet m off k := by
  apply leGet_congr
  intro j hj
  exact lePut_lower k' _ (by omega)

theorem leGet_lePut_of_ge {m : Nat → Nat} {off off' v : Nat} (k k' : Nat)
    (h : off' + k' ≤ off) :
    leGet (lePut m off' v k') off k = leGet m off k := by
  apply leGet_congr
  intro j hj
  exact lePut_upper k' _ (by omega)

theorem leGet_lePut (m : Nat → Nat) (off v : Nat) (k : Nat) :
    leGet (lePut m off v k) off k = v % 256 ^ k := by
  induction k generalizing m off v with
  | zero => simp [leGet, lePut, Nat.mod_one]
  | succ k ih =>
    simp only [lePut, leGet]
    rw [ih]
    have hoff : lePut (wr m off (v % 256)) (off + 1) (v / 256) k off
        = wr m off (v % 256) off := lePut_lower k off (by omega)
    rw [hoff, wr_same]
    rw [show (256 : Nat) ^ (k + 1) = 256 * 256 ^ k from by ring, Nat.mod_mul]

theorem pow256_eight : (256 : Nat) ^ 8 = 2 ^ 64 := by norm_num

/-- Effect of compiling a sequence of cells: `here` advances by 8 per cell,
bytes below the old `here` are untouched, and each cell reads back (mod `2^64`). -/
theorem compileCells_spec (vals : List Nat) : ∀ ds : DataSpace,
    ds.here + 8 * vals.length ≤ ds.limit →
    ∃ ds', ds.compileCells vals = some ds' ∧
      ds'.len = ds.len + 8 * vals.length ∧ ds'.cap = ds.cap ∧
      (∀ j < ds.len, ds'.mem j = ds.mem j) ∧
      (∀ i (hi : i < vals.length),
        leGet ds'.mem (ds.len + 8 * i) 8 = vals.get ⟨i, hi⟩ % 2 ^ 64) := by
  induction vals with
  | nil =>
    intro ds _
    exact ⟨ds, rfl, by simp, rfl, fun j _ => rfl, fun i hi => absurd hi (by simp)⟩
  | cons v rest ih =>
    intro ds hroom
    simp only [List.length_cons] at hroom
    have hcap : ds.here + 8 ≤ ds.limit := by omega
    have hstep : ds.compile_usize v =
        some { ds with mem := lePut ds.mem ds.len v 8, len := ds.len + 8 } := by
      simp [DataSpace.compile_usize, hcap]
    set ds1 : DataSpace := { ds with mem := lePut ds.mem ds.len v 8, len := ds.len + 8 }
      with hds1
    have hroom1 : ds1.here + 8 * rest.length ≤ ds1.limit := by
      have h1 : ds1.len = ds.len + 8 := by rw [hds1]
      have h2 : ds1.cap = ds.cap := by rw [hds1]
      simp only [DataSpace.here, DataSpace.limit] at hroom ⊢
      omega
    obtain ⟨ds', hrun, hlen, hcap', hlow, hcells⟩ := ih ds1 hroom1
    refine ⟨ds', ?_, ?_, ?_, ?_, ?_⟩
    · simp only [DataSpace.compileCells, hstep, Option.bind_eq_bind, Option.some_bind]
      exact hrun
    · simp only [hlen, hds1, List.length_cons]; omega
    · simpa [hds1] using hcap'
    · intro j hj
      rw [hlow j (by simp only [hds1]; omega)]
      exact lePut_lower 8 j hj
    · intro i hi
      cases i with
      | zero =>
        have h8 : ∀ j < 8, ds'.mem (ds.len + 8 * 0 + j) = ds1.mem (ds.len + 8 * 0 + j) := by
          intro j hj
          exact hlow _ (by simp only [hds1]; omega)
        rw [leGet_congr 8 h8]
        have hv : leGet ds1.mem (ds.len + 8 * 0) 8 = v % 256 ^ 8 := by
          have hm : ds1.mem = lePut ds.mem ds.len v 8 := by rw [hds1]
          rw [hm]
          simpa using leGet_lePut ds.mem ds.len v 8
        rw [hv, pow256_eight]
        rfl
      | succ i =>
        have hi' : i < rest.length := by
          simp only [List.length_cons] at hi
          omega
        have hlen1 : ds1.len = ds.len + 8 := by rw [hds1]
        have hc := hcells i hi'
        rw [hlen1] at hc
        rw [show ds.len + 8 * (i + 1) = ds.len + 8 + 8 * i from by ring]
        exact hc

/-! ## Dictionary (`Wordlist` / `Word` in `core.rs`)

Names are byte strings (`List Nat`); a word's name is the counted string
stored at its NFA in data space (`data_space().get_str(nfa)`). -/

/-- `u8::to_ascii_lowercase`. -/
def toLowerByte (b : Nat) : Nat := if 65 ≤ b ∧ b ≤ 90 then b + 32 else b

/-- `str::eq_ignore_ascii_case` on byte strings: equal length and equal
lowercased bytes. -/
def eqIgnoreCase (a b : List Nat) : Bool := a.map toLowerByte == b.map toLowerByte

/-- `Wordlist::hash`: DJB2 over the lowercased bytes, `u32` wrapping
(`hash.wrapping_shl(5).wrapping_add(hash).wrapping_add(lower c)` =
`(hash * 33 + lower c) mod 2^32`). -/
def djb2 (name : List Nat) : Nat :=
  name.foldl (fun h c => (h * 33 + toLowerByte c) % 2 ^ 32) 5381

/-- `BUCKET_SIZE`. -/
def BUCKET_SIZE : Nat := 64

/-- A dictionary header (`Word<Target>`).  The two callable handles
(`action`, `compilation_semantics`) are not data; the modelled operations
dispatch on the XT instead.  The unused timing fields are omitted. -/
structure Word where
  isImmediate : Bool := false
  isCompileOnly : Bool := false
  hidden : Bool := false
  link : Nat := 0
  hash : Nat := 0
  nfa : Nat
  dfa : Nat
  doer : Nat := 0
  deriving DecidableEq, Repr

instance : Inhabited Word := ⟨{ nfa := 0, dfa := 0 }⟩

/-- `Wordlist<Target>`: the header array, the 64 bucket heads and the
`temp_buckets` shadow (only indices `< 64` are meaningful), and `last`. -/
structure Wordlist where
  words : List Word
  buckets : Nat → Nat
  tempBuckets : Nat → Nat
  last : Nat

namespace Wordlist

/-- `Wordlist::push`: set the word's hash, link it in front of its bucket
chain, point the bucket at it, and record it as `last`. -/
def push (wl : Wordlist) (name : List Nat) (w : Word) : Wordlist :=
  let h := djb2 name
  let b := h % BUCKET_SIZE
  { wl with
    words := wl.words ++ [{ w with hash := h, link := wl.buckets b }],
    buckets := wr wl.buckets b wl.words.length,
    last := wl.words.length }

/-- `Wordlist::truncate`: drop the `i`-th word and everything behind it and
reset `last` to the new top (`words.len() - 1`). -/
def truncate (wl : Wordlist) (i : Nat) : Wordlist :=
  { wl with words := wl.words.take i, last := (wl.words.take i).length - 1 }

end Wordlist

/--
The loop body of `Core::find`, with explicit fuel for the `while w != 0`
walk (any well-formed chain is strictly descending, so fuel
`words.length` suffices).  The source indexes `wordlist()[w]`, which
panics out of bounds; the model reads `getD` — the theorems only apply
the function to chains whose members are in bounds.
-/
def findAux (wl : Wordlist) (ds : DataSpace) (h : Nat) (name : List Nat) :
    Nat → Nat → Option Nat
  | 0, _ => none
  | fuel + 1, w =>
    if w = 0 then none
    else
      let wd := wl.words.getD w default
      if ¬wd.hidden ∧ wd.hash = h ∧ eqIgnoreCase (ds.get_str wd.nfa) name
      then some w
      else findAux wl ds h name fuel wd.link

/-- `Core::find`: hash the name, then walk that bucket's chain. -/
def find (wl : Wordlist) (ds : DataSpace) (name : List Nat) : Option Nat :=
  findAux wl ds (djb2 name) name wl.words.length (wl.buckets (djb2 name % BUCKET_SIZE))

/-! ## The VM

The state visible to the modelled operations.  Tasks other than the current
one only contribute their `awake` bits (`pause` is the only modelled word
that crosses tasks); the four stacks below are the current task's.
The float stack holds `f64` values in the source; the claims below touch
only its shape (length and canary slots), so its elements are modelled
opaquely as `Int`.
-/
structure VM where
  sStack : Stack Int
  rStack : Stack Int
  cStack : Stack Control
  fStack : Stack Int
  lastError : Option Exc
  handler : Nat
  wordPointer : Nat
  abortedWordPointer : Nat
  instructionPointer : Nat
  isCompiling : Bool
  sourceIndex : Nat
  inputBuffer : List Char
  lastToken : List Char
  /-- The output collaborator; the modelled operations only append messages
  (the `Redefining` notice is recorded as the redefined name). -/
  outputBuffer : List (List Nat)
  dataSpace : DataSpace
  wordlist : Wordlist
  /-- `ForwardReferences::idx_exit` — the only cached XT the modelled
  operations consult. -/
  idxExit : Nat
  /-- The `forward` label bitset, as the list of set indices.  The source
  tests emptiness via `layer3() != 0`, which for label indices `< 1000`
  holds exactly when the set is non-empty. -/
  forwardLabels : List Nat
  /-- The `resolved` label bitset, as the list of set indices. -/
  resolvedLabels : List Nat
  labels : Nat → Nat
  currentTask : Nat
  awake : Nat → Bool

/-- `NUM_TASKS`. -/
def NUM_TASKS : Nat := 5

namespace VM

/-- `Core::clear_stacks`: reset the data, floating-point and control stacks. -/
def clearStacks (vm : VM) : VM :=
  { vm with sStack := vm.sStack.reset, fStack := vm.fStack.reset,
            cStack := vm.cStack.reset }

/--
`Core::abort_with(e)`: clear the three stacks, record the error and the
faulting word pointer.  The source then calls `execute_word(handler)`; the
handler's own behaviour is client-installed and outside this model, so the
function returns the state at handler entry together with the XT that
`execute_word` receives.
-/
def abortWith (e : Exc) (vm : VM) : VM × Nat :=
  let vm1 := vm.clearStacks
  let vm2 := { vm1 with lastError := some e, abortedWordPointer := vm1.wordPointer }
  (vm2, vm2.handler)

/-- `Core::check_stacks`: test the four stacks in order and abort with the
matching code on the first fault. -/
def checkStacks (vm : VM) : VM :=
  if vm.sStack.overflow then (abortWith Exc.STACK_OVERFLOW vm).1
  else if vm.sStack.underflow then (abortWith Exc.STACK_UNDERFLOW vm).1
  else if vm.rStack.overflow then (abortWith Exc.RETURN_STACK_OVERFLOW vm).1
  else if vm.rStack.underflow then (abortWith Exc.RETURN_STACK_UNDERFLOW vm).1
  else if vm.cStack.overflow then (abortWith Exc.CONTROL_STRUCTURE_MISMATCH vm).1
  else if vm.cStack.underflow then (abortWith Exc.CONTROL_STRUCTURE_MISMATCH vm).1
  else if vm.fStack.overflow then (abortWith Exc.FLOATING_POINT_STACK_OVERFLOW vm).1
  else if vm.fStack.underflow then (abortWith Exc.FLOATING_POINT_STACK_UNDERFLOW vm).1
  else vm

/-- `Core::dup`: bump the length and copy the slot below the new top into
the new top (no canary check of its own). -/
def dup (vm : VM) : VM :=
  let slen := (vm.sStack.len + 1) % 256
  { vm with sStack :=
      { vm.sStack with
        len := slen
        inner := wr vm.sStack.inner ((slen + 255) % 256)
          (vm.sStack.inner ((slen + 254) % 256)) } }

/-- `Core::fetch` (`@`): pop an address; push the cell stored there if
`start() < t && t + size_of::<isize>() <= limit()`, and abort with
`INVALID_MEMORY_ADDRESS` otherwise.  The sum `t + 8` is a `usize`
addition: for `t ≥ 2^64 - 8` it overflows — a panic in a debug build,
while in release the wrapped sum (< 8 ≤ limit) passes the bound test and
the out-of-range slice index inside `get_isize` panics — so those eight
addresses are `none`, not an `INVALID_MEMORY_ADDRESS` abort. -/
def fetch (vm : VM) : Option VM :=
  let (t, s1) := vm.sStack.pop
  let vm1 := { vm with sStack := s1 }
  let addr := toUnsigned t
  if 2 ^ 64 ≤ addr + 8 then none
  else if vm.dataSpace.start < addr ∧ addr + 8 ≤ vm.dataSpace.limit then
    some { vm1 with sStack := s1.push (vm.dataSpace.get_isize addr) }
  else some (abortWith Exc.INVALID_MEMORY_ADDRESS vm1).1

/-- `Core::store` (`!`): pop a value and an address; store the cell under
the same bound test as `fetch`, abort with `INVALID_MEMORY_ADDRESS`
otherwise; the same `usize` overflow of `t + 8` panics (`none`) for the
top eight addresses. -/
def store (vm : VM) : Option VM :=
  let ((n, t), s1) := vm.sStack.pop2
  let vm1 := { vm with sStack := s1 }
  let addr := toUnsigned t
  if 2 ^ 64 ≤ addr + 8 then none
  else if vm.dataSpace.start < addr ∧ addr + 8 ≤ vm.dataSpace.limit then
    some { vm1 with dataSpace := vm.dataSpace.put_isize n addr }
  else some (abortWith Exc.INVALID_MEMORY_ADDRESS vm1).1

/-- `Core::equals` (`=`): pop two cells, push `TRUE` (-1) iff equal. -/
def equalsW (vm : VM) : VM :=
  let ((n, t), s1) := vm.sStack.pop2
  { vm with sStack := s1.push (if t = n then -1 else 0) }

/-- `Core::here` (the word `here`): push the data-space pointer
(`here() as isize`). -/
def hereW (vm : VM) : VM :=
  { vm with sStack := vm.sStack.push (wrap (Int.ofNat vm.dataSpace.here)) }

/-- `Core::left_bracket` (`[`). -/
def leftBracket (vm : VM) : VM := { vm with isCompiling := false }

/-- Unhide the `last` definition (`wordlist[def].set_hidden(false)`). -/
def unhideLast (wl : Wordlist) : Wordlist :=
  { wl with words :=
      wl.words.set wl.last { wl.words.getD wl.last default with hidden := false } }

/--
`Core::semicolon` (`;`): with a non-empty control stack or a non-empty
forward-label set, abort with `CONTROL_STRUCTURE_MISMATCH`; otherwise
compile `exit` (via its compilation semantics, `compile_word idx_exit`)
and unhide the current definition.  Either way leave compile state
(`left_bracket`).  `none` is the source's arena-exhaustion panic.
-/
def semicolon (vm : VM) : Option VM :=
  if vm.cStack.len ≠ 0 then some (leftBracket (abortWith Exc.CONTROL_STRUCTURE_MISMATCH vm).1)
  else if ¬vm.forwardLabels.isEmpty then
    some (leftBracket (abortWith Exc.CONTROL_STRUCTURE_MISMATCH vm).1)
  else do
    let ds ← vm.dataSpace.compile_usize vm.idxExit
    some (leftBracket { vm with dataSpace := ds, wordlist := unhideLast vm.wordlist })

/--
`Core::define` after its `parse_word` (the tokenizer is modelled
separately): lowercase the token, record a redefinition notice if the name
already resolves, abort with `UNEXPECTED_END_OF_FILE` on an empty name;
otherwise compile the counted name string, cell-align and append a header
whose DFA is the new `here`. -/
def defineNamed (name : List Nat) (vm : VM) : Option VM :=
  let nameL := name.map toLowerByte
  let vm :=
    if (find vm.wordlist vm.dataSpace nameL).isSome then
      { vm with outputBuffer := vm.outputBuffer ++ [nameL] }
    else vm
  if nameL.isEmpty then some (abortWith Exc.UNEXPECTED_END_OF_FILE vm).1
  else do
    let (ds1, nfa) ← vm.dataSpace.compile_str nameL
    let ds2 ← ds1.align
    some { vm with
           dataSpace := ds2
           wordlist := vm.wordlist.push nameL { nfa := nfa, dfa := ds2.here } }

/--
`Core::marker` after its inner `parse_word`: snapshot `last` and the bucket
heads, define the marker word, then compile `last` followed by the 64
saved bucket heads into its data field. -/
def markerNamed (name : List Nat) (vm : VM) : Option VM :=
  let x := vm.wordlist.last
  let vm1 := { vm with wordlist := { vm.wordlist with tempBuckets := vm.wordlist.buckets } }
  do
    let vm2 ← defineNamed name vm1
    let ds3 ← vm2.dataSpace.compile_usize x
    let ds4 ← ds3.compileCells ((List.range BUCKET_SIZE).map vm2.wordlist.tempBuckets)
    some { vm2 with dataSpace := ds4 }

/--
`Core::unmark` executing as word `wp` (`word_pointer = wp`): read back the
saved `last` and the 64 bucket heads from the word's data field, truncate
the data space to the word's NFA and the word list to `wp`. -/
def unmarkAt (wp : Nat) (vm : VM) : Option VM :=
  let w := vm.wordlist.words.getD wp default
  let x := vm.dataSpace.get_usize w.dfa
  let buckets' : Nat → Nat := fun i =>
    if i < BUCKET_SIZE then vm.dataSpace.get_usize (w.dfa + 8 * (i + 1))
    else vm.wordlist.buckets i
  do
    let ds' ← vm.dataSpace.truncate w.nfa
    some { vm with
           dataSpace := ds'
           wordlist := Wordlist.truncate
             { vm.wordlist with last := x, buckets := buckets' } wp }

end VM

/-- The loop body of `Core::pause` with explicit fuel: step to the next
task index mod `NUM_TASKS` until an awake task is found.  `none` models a
walk that has not found an awake task within `fuel` steps; the source
loops forever in that case. -/
def pauseAux (awake : Nat → Bool) : Nat → Nat → Option Nat
  | 0, _ => none
  | fuel + 1, i =>
    let j := (i + 1) % NUM_TASKS
    if awake j then some j else pauseAux awake fuel j

/-! ## Tokenizer (`Core::parse_word`)

The input buffer is a Rust `String`; `source_index` and `char_indices`
offsets are byte offsets into its UTF-8 encoding.  The buffer is modelled
as a `List Char` and offsets are computed with `Char.utf8Size`. -/

/-- The whitespace delimiters of `parse_word`: tab, LF, CR, space. -/
def isDelim (c : Char) : Bool := c == '\t' || c == '\n' || c == '\r' || c == ' '

/-- UTF-8 byte length of a character list. -/
def utf8Len (l : List Char) : Nat := (l.map Char.utf8Size).sum

/-- Drop the characters occupying the first `n` bytes
(`&input_buffer[source_index..]`).  The source slices at a byte index and
panics when it is not a character boundary; that case never arises under
the theorems' boundary hypotheses. -/
def byteDrop : Nat → List Char → List Char
  | 0, l => l
  | _ + 1, [] => []
  | n + 1, c :: rest =>
    if c.utf8Size ≤ n + 1 then byteDrop (n + 1 - c.utf8Size) rest else rest

/--
The `char_indices` loop of `parse_word`: `idx` is the byte offset consumed
so far, `tok` the token built so far.  A delimiter is skipped while the
token is empty and terminates the scan (with `cnt = idx`, the offset of
that delimiter) once the token is non-empty; every other character is
appended.  Returns the token and the final `cnt`.
-/
def parseWordAux : List Char → Nat → List Char → List Char × Nat
  | [], idx, tok => (tok, idx)
  | c :: rest, idx, tok =>
    if isDelim c then
      if tok.isEmpty then parseWordAux rest (idx + c.utf8Size) tok
      else (tok, idx)
    else parseWordAux rest (idx + c.utf8Size) (tok ++ [c])

/-- `Core::parse_word` on a buffer and a `source_index`: clear the token;
if `source_index < input_buffer.len()`, scan the byte suffix and advance
`source_index` by the resulting `cnt`. -/
def parseWord (buf : List Char) (srcIdx : Nat) : List Char × Nat :=
  if srcIdx < utf8Len buf then
    let p := parseWordAux (byteDrop srcIdx buf) 0 []
    (p.1, srcIdx + p.2)
  else ([], srcIdx)

/-- `Core::parse_word` as a state operation: replaces `last_token` and
`source_index`, leaves the rest of the VM unchanged. -/
def VM.parseWordOp (vm : VM) : VM :=
  let p := parseWord vm.inputBuffer vm.sourceIndex
  { vm with lastToken := p.1, sourceIndex := p.2 }

theorem parseWordAux_collect (l : List Char) :
    ∀ (idx : Nat) (tok : List Char), tok ≠ [] →
    parseWordAux l idx tok =
      (tok ++ l.takeWhile (fun c => !isDelim c),
        idx + utf8Len (l.takeWhile (fun c => !isDelim c))) := by
  induction l with
  | nil => intro idx tok _; simp [parseWordAux, utf8Len]
  | cons c rest ih =>
    intro idx tok htok
    by_cases hc : isDelim c
    · simp [parseWordAux, hc, List.isEmpty_iff, htok, List.takeWhile_cons, utf8Len]
    · simp only [parseWordAux, hc, Bool.false_eq_true, if_false, List.takeWhile_cons,
        Bool.not_false, if_true]
      rw [ih (idx + c.utf8Size) (tok ++ [c]) (by simp)]
      simp [utf8Len]
      omega

theorem parseWordAux_spec (l : List Char) : ∀ idx : Nat,
    parseWordAux l idx [] =
      ((l.dropWhile isDelim).takeWhile (fun c => !isDelim c),
        idx + utf8Len (l.takeWhile isDelim)
          + utf8Len ((l.dropWhile isDelim).takeWhile (fun c => !isDelim c))) := by
  induction l with
  | nil => intro idx; simp [parseWordAux, utf8Len]
  | cons c rest ih =>
    intro idx
    by_cases hc : isDelim c
    · simp only [parseWordAux, hc, if_true, List.isEmpty_nil, List.dropWhile_cons,
        List.takeWhile_cons]
      rw [ih (idx + c.utf8Size)]
      simp [utf8Len]
      omega
    · simp only [parseWordAux, hc, Bool.false_eq_true, if_false, List.dropWhile_cons,
        List.takeWhile_cons, Bool.not_false, if_true]
      rw [List.nil_append]
      rw [parseWordAux_collect rest (idx + c.utf8Size) [c] (by simp)]
      simp [utf8Len]
      omega

theorem utf8Len_append (a b : List Char) : utf8Len (a ++ b) = utf8Len a + utf8Len b := by
  simp [utf8Len]

theorem utf8Len_eq_zero {l : List Char} (h : utf8Len l = 0) : l = [] := by
  cases l with
  | nil => rfl
  | cons c rest =>
    exfalso
    have hc := Char.utf8Size_pos c
    simp [utf8Len] at h
    omega

theorem byteDrop_append (pre : List Char) : ∀ post : List Char,
    byteDrop (utf8Len pre) (pre ++ post) = post := by
  induction pre with
  | nil => intro post; simp [utf8Len, byteDrop]
  | cons c rest ih =>
    intro post
    have hc := Char.utf8Size_pos c
    have hlen : utf8Len (c :: rest) = c.utf8Size + utf8Len rest := by simp [utf8Len]
    rw [hlen]
    obtain ⟨m, hm⟩ : ∃ m, c.utf8Size + utf8Len rest = m + 1 :=
      ⟨c.utf8Size + utf8Len rest - 1, by omega⟩
    rw [hm]
    show byteDrop (m + 1) (c :: (rest ++ post)) = post
    rw [byteDrop]
    rw [if_pos (by omega)]
    rw [show m + 1 - c.utf8Size = utf8Len rest from by omega]
    exact ih post

/-! ## Concrete base states -/

/-- The parameter/return-stack canary installed by the host (`rtf/src/main.rs`):
`Stack::new(0x12345678)`. -/
def canaryS : Int := 0x12345678

/-- A data space holding only the system-variable block: a NULL cell and the
`BASE` cell initialised to 10 (`DataSpace::with_capacity`). -/
def dataSpace0 : DataSpace :=
  { mem := lePut (fun _ => 0) 8 10 8, len := 16, cap := 1024 }

/-- An empty word list. -/
def wordlist0 : Wordlist :=
  { words := [], buckets := fun _ => 0, tempBuckets := fun _ => 0, last := 0 }

/-- A small concrete VM used to instantiate theorems: freshly reset stacks
with the host canaries, empty dictionary, fresh data space, task 0 awake. -/
def baseVM : VM where
  sStack := Stack.fresh canaryS
  rStack := Stack.fresh canaryS
  cStack := Stack.fresh Control.Default
  fStack := Stack.fresh 1
  lastError := none
  handler := 0
  wordPointer := 0
  abortedWordPointer := 0
  instructionPointer := 0
  isCompiling := false
  sourceIndex := 0
  inputBuffer := []
  lastToken := []
  outputBuffer := []
  dataSpace := dataSpace0
  wordlist := wordlist0
  idxExit := 2
  forwardLabels := []
  resolvedLabels := []
  labels := fun _ => 0
  currentTask := 0
  awake := fun i => decide (i = 0)

/-- Push a whole list, left to right (`for v in vs { stack.push(v) }`). -/
def Stack.pushList {α : Type} (s : Stack α) (vs : List α) : Stack α :=
  vs.foldl Stack.push s

theorem pushList_spec {α : Type} (vs : List α) : ∀ s : Stack α,
    s.len + vs.length ≤ 255 →
    (s.pushList vs).len = s.len + vs.length ∧
    (s.pushList vs).canary = s.canary ∧
    (∀ j, j < s.len ∨ s.len + vs.length ≤ j → (s.pushList vs).inner j = s.inner j) ∧
    (∀ i (hi : i < vs.length), (s.pushList vs).inner (s.len + i) = vs.get ⟨i, hi⟩) := by
  induction vs with
  | nil =>
    intro s _
    exact ⟨by simp [Stack.pushList], rfl, fun j _ => rfl,
      fun i hi => absurd hi (by simp)⟩
  | cons v rest ih =>
    intro s hlen
    simp only [List.length_cons] at hlen
    have hstep : Stack.pushList s (v :: rest) = Stack.pushList (s.push v) rest := rfl
    have hplen : (s.push v).len = s.len + 1 := by
      show (s.len + 1) % 256 = s.len + 1
      omega
    have hpinner : (s.push v).inner = wr s.inner s.len v := by
      show wr s.inner (((s.len + 1) % 256 + 255) % 256) v = wr s.inner s.len v
      rw [show ((s.len + 1) % 256 + 255) % 256 = s.len from by omega]
    obtain ⟨h1, h2, h3, h4⟩ := ih (s.push v) (by omega)
    rw [hstep]
    refine ⟨?_, by rw [h2]; rfl, ?_, ?_⟩
    · rw [h1, hplen]
      simp only [List.length_cons]
      omega
    · intro j hj
      simp only [List.length_cons] at hj
      rw [h3 j (by omega), hpinner, wr_other _ _ _ _ (by omega)]
    · intro i hi
      cases i with
      | zero =>
        rw [show s.len + 0 = (s.push v).len - 1 from by omega]
        rw [h3 ((s.push v).len - 1) (by omega), hpinner]
        rw [show (s.push v).len - 1 = s.len from by omega, wr_same]
        rfl
      | succ i =>
        have hi' : i < rest.length := by simpa using hi
        have := h4 i hi'
        rw [hplen] at this
        rw [show s.len + (i + 1) = s.len + 1 + i from by omega]
        exact this

/-! ## Claim C1 — `parse_word` -/

/--
C1, counterexample to the claim as stated: parsing `"ab cd"` from index 0
returns the token `"ab"` and leaves `source_index = 2`, the byte index
**of** the terminating space — not `3`, the index of the character after
it.  (The source's own regression test asserts index 5 after parsing
`"hello"` from `"hello world…"`, confirming this behaviour.)
-/
theorem C1_parse_word_counterexample :
    parseWord ['a', 'b', ' ', 'c', 'd'] 0 = (['a', 'b'], 2) ∧
      (parseWord ['a', 'b', ' ', 'c', 'd'] 0).2 ≠ 3 := by
  constructor <;> decide

/--
C1 (amended): for every input buffer and every character-boundary
`source_index`, `parse_word` copies the next whitespace-delimited token
(skipping leading space, tab, CR, LF) into the last token, and on return
`source_index` has been advanced past the leading delimiters and the token
only: when a terminating delimiter exists, `source_index` points **at**
that delimiter (it is consumed as a leading delimiter by the next scan),
and otherwise at the end of the buffer.
-/
theorem C1_parse_word (vm : VM) (pre post : List Char)
    (hbuf : vm.inputBuffer = pre ++ post) (hidx : vm.sourceIndex = utf8Len pre) :
    vm.parseWordOp.lastToken =
      (post.dropWhile isDelim).takeWhile (fun c => !isDelim c) ∧
    vm.parseWordOp.sourceIndex =
      utf8Len pre + (utf8Len (post.takeWhile isDelim)
        + utf8Len ((post.dropWhile isDelim).takeWhile (fun c => !isDelim c))) := by
  have hcore : parseWord vm.inputBuffer vm.sourceIndex =
      ((post.dropWhile isDelim).takeWhile (fun c => !isDelim c),
        utf8Len pre + (utf8Len (post.takeWhile isDelim)
          + utf8Len ((post.dropWhile isDelim).takeWhile (fun c => !isDelim c)))) := by
    rw [hbuf, hidx]
    by_cases hin : utf8Len pre < utf8Len (pre ++ post)
    · rw [parseWord, if_pos hin, byteDrop_append, parseWordAux_spec]
      simp only [Prod.mk.injEq, true_and]
      omega
    · have hpost : post = [] := by
        rw [utf8Len_append] at hin
        exact utf8Len_eq_zero (by omega)
      subst hpost
      rw [parseWord, if_neg hin]
      simp [utf8Len]
  constructor
  · show (parseWord vm.inputBuffer vm.sourceIndex).1 = _
    rw [hcore]
  · show (parseWord vm.inputBuffer vm.sourceIndex).2 = _
    rw [hcore]

/-- C1 witness: the amended theorem applied to a concrete buffer. -/
theorem C1_parse_word_witness :
    ({ baseVM with inputBuffer := ['a', 'b', ' ', 'c', 'd'] } : VM).parseWordOp.lastToken
        = ['a', 'b'] ∧
    ({ baseVM with inputBuffer := ['a', 'b', ' ', 'c', 'd'] } : VM).parseWordOp.sourceIndex
        = 2 := by
  have h := C1_parse_word { baseVM with inputBuffer := ['a', 'b', ' ', 'c', 'd'] }
    [] ['a', 'b', ' ', 'c', 'd'] rfl rfl
  refine ⟨?_, ?_⟩
  · rw [h.1]; decide
  · rw [h.2]; decide

/-! ## Claim C8 — `abort_with` -/

/--
C8: `abort_with(e)` resets the parameter, float and control stacks, sets
`last_error = Some(e)`, records the faulting word pointer in
`aborted_word_pointer`, and hands the handler XT to `execute_word`; every
other component of the VM state at handler entry — in particular the
return stack, the dictionary and the data space — is unchanged.
-/
theorem C8_abort_with (e : Exc) (vm : VM) :
    (VM.abortWith e vm).1.sStack = vm.sStack.reset ∧
    (VM.abortWith e vm).1.fStack = vm.fStack.reset ∧
    (VM.abortWith e vm).1.cStack = vm.cStack.reset ∧
    (VM.abortWith e vm).1.lastError = some e ∧
    (VM.abortWith e vm).1.abortedWordPointer = vm.wordPointer ∧
    (VM.abortWith e vm).2 = vm.handler ∧
    (VM.abortWith e vm).1.rStack = vm.rStack ∧
    (VM.abortWith e vm).1.dataSpace = vm.dataSpace ∧
    (VM.abortWith e vm).1.wordlist = vm.wordlist ∧
    (VM.abortWith e vm).1.handler = vm.handler ∧
    (VM.abortWith e vm).1.wordPointer = vm.wordPointer ∧
    (VM.abortWith e vm).1.instructionPointer = vm.instructionPointer ∧
    (VM.abortWith e vm).1.isCompiling = vm.isCompiling ∧
    (VM.abortWith e vm).1.sourceIndex = vm.sourceIndex ∧
    (VM.abortWith e vm).1.inputBuffer = vm.inputBuffer ∧
    (VM.abortWith e vm).1.lastToken = vm.lastToken ∧
    (VM.abortWith e vm).1.outputBuffer = vm.outputBuffer ∧
    (VM.abortWith e vm).1.idxExit = vm.idxExit ∧
    (VM.abortWith e vm).1.forwardLabels = vm.forwardLabels ∧
    (VM.abortWith e vm).1.resolvedLabels = vm.resolvedLabels ∧
    (VM.abortWith e vm).1.labels = vm.labels ∧
    (VM.abortWith e vm).1.currentTask = vm.currentTask ∧
    (VM.abortWith e vm).1.awake = vm.awake := by
  refine ⟨rfl, rfl, rfl, rfl, rfl, rfl, rfl, rfl, rfl, rfl, rfl, rfl, rfl, rfl,
    rfl, rfl, rfl, rfl, rfl, rfl, rfl, rfl, rfl⟩

/-! ## Claim C9 — one-cell underflow is invisible to `dup` -/

/--
C9: executing `dup` on an empty, freshly-reset parameter stack copies the
canary at slot 255 into slot 0 and sets the length to 1; the following
`check_stacks` sees intact canaries and an in-range length on every stack
and raises no error.
-/
theorem C9_dup_empty (vm : VM) (cs cr : Int) (cc : Control) (cf : Int)
    (hs : vm.sStack = Stack.fresh cs) (hr : vm.rStack = Stack.fresh cr)
    (hc : vm.cStack = Stack.fresh cc) (hf : vm.fStack = Stack.fresh cf)
    (herr : vm.lastError = none) :
    (vm.dup).sStack.len = 1 ∧
    (vm.dup).sStack.inner 0 = cs ∧
    (vm.dup.checkStacks).lastError = none := by
  have hdup : vm.dup.sStack =
      { inner := wr (fun _ => cs) 0 cs, len := 1, canary := cs } := by
    simp [VM.dup, hs, Stack.fresh]
  refine ⟨by rw [hdup], by rw [hdup]; exact wr_same (fun _ => cs) 0 cs, ?_⟩
  have hflags : vm.dup.sStack.overflow = false ∧ vm.dup.sStack.underflow = false := by
    rw [hdup]
    constructor
    · simp [Stack.overflow, wr_other (fun _ => cs) 0 64 cs (by omega)]
    · simp [Stack.underflow, wr_other (fun _ => cs) 0 255 cs (by omega)]
  have hrest : vm.dup.rStack = Stack.fresh cr ∧ vm.dup.cStack = Stack.fresh cc ∧
      vm.dup.fStack = Stack.fresh cf ∧ vm.dup.lastError = none := by
    exact ⟨hr, hc, hf, herr⟩
  obtain ⟨h1, h2⟩ := hflags
  obtain ⟨h3, h4, h5, h6⟩ := hrest
  have hfreshO : ∀ (β : Type) (c : β) (_ : DecidableEq β),
      (Stack.fresh c).overflow = false ∧ (Stack.fresh c).underflow = false := by
    intro β c hdec
    constructor <;> simp [Stack.overflow, Stack.underflow, Stack.fresh]
  rw [VM.checkStacks, h1, h2, h3, h4, h5]
  simp only [Bool.false_eq_true, if_false]
  have hOr := hfreshO Int cr inferInstance
  have hOc := hfreshO Control cc inferInstance
  have hOf := hfreshO Int cf inferInstance
  rw [hOr.1, hOr.2, hOc.1, hOc.2, hOf.1, hOf.2]
  simp only [Bool.false_eq_true, if_false]
  exact h6

/-- C9 witness: `dup` then `check_stacks` on the concrete fresh VM. -/
theorem C9_dup_empty_witness :
    baseVM.dup.sStack.len = 1 ∧
    baseVM.dup.sStack.inner 0 = canaryS ∧
    (baseVM.dup.checkStacks).lastError = none :=
  C9_dup_empty baseVM canaryS canaryS Control.Default 1 rfl rfl rfl rfl rfl

/-! ## Claim C2 — `;` and its control-structure checks -/

/--
C2: when `;` executes, a non-empty control stack or a remaining forward
label raises `CONTROL_STRUCTURE_MISMATCH`; otherwise it compiles `exit`,
unhides the current definition, and in all cases leaves compile state.
Consequently, after `;` completes without error the control stack was
empty and no forward labels remained.
-/
theorem C2_semicolon (vm : VM) (hroom : vm.dataSpace.here + 8 ≤ vm.dataSpace.limit) :
    ((vm.cStack.len ≠ 0 ∨ vm.forwardLabels ≠ []) →
      ∃ vm', vm.semicolon = some vm' ∧
        vm'.lastError = some Exc.CONTROL_STRUCTURE_MISMATCH ∧
        vm'.isCompiling = false) ∧
    (vm.cStack.len = 0 → vm.forwardLabels = [] →
      ∃ vm', vm.semicolon = some vm' ∧
        vm'.lastError = vm.lastError ∧
        vm'.dataSpace.get_usize vm.dataSpace.here = vm.idxExit % 2 ^ 64 ∧
        vm'.dataSpace.here = vm.dataSpace.here + 8 ∧
        vm'.wordlist = VM.unhideLast vm.wordlist ∧
        vm'.isCompiling = false) ∧
    (∀ vm', vm.semicolon = some vm' → vm'.lastError = none →
      vm.cStack.len = 0 ∧ vm.forwardLabels = []) := by
  have hds : vm.dataSpace.compile_usize vm.idxExit =
      some { vm.dataSpace with
             mem := lePut vm.dataSpace.mem vm.dataSpace.len vm.idxExit 8
             len := vm.dataSpace.len + 8 } := by
    rw [DataSpace.compile_usize, if_pos hroom]
  refine ⟨?_, ?_, ?_⟩
  · intro hbad
    rcases Decidable.em (vm.cStack.len = 0) with hc | hc
    · have hfwd : vm.forwardLabels ≠ [] := by tauto
      refine ⟨VM.leftBracket (VM.abortWith Exc.CONTROL_STRUCTURE_MISMATCH vm).1,
        ?_, rfl, rfl⟩
      rw [VM.semicolon, if_neg (by simp [hc]),
        if_pos (by simpa [List.isEmpty_iff] using hfwd)]
    · refine ⟨VM.leftBracket (VM.abortWith Exc.CONTROL_STRUCTURE_MISMATCH vm).1,
        ?_, rfl, rfl⟩
      rw [VM.semicolon, if_pos hc]
  · intro hc hfwd
    have hsemi : vm.semicolon = some (VM.leftBracket
        { vm with
          dataSpace := { vm.dataSpace with
            mem := lePut vm.dataSpace.mem vm.dataSpace.len vm.idxExit 8
            len := vm.dataSpace.len + 8 }
          wordlist := VM.unhideLast vm.wordlist }) := by
      rw [VM.semicolon, if_neg (by simp [hc]), if_neg (by simp [hfwd]),
        Option.bind_eq_bind, hds, Option.some_bind]
    refine ⟨_, hsemi, rfl, ?_, ?_, rfl, rfl⟩
    · show leGet (lePut vm.dataSpace.mem vm.dataSpace.len vm.idxExit 8)
        (vm.dataSpace.here - BASE_ADDR) 8 = vm.idxExit % 2 ^ 64
      rw [show vm.dataSpace.here - BASE_ADDR = vm.dataSpace.len from by
        simp [DataSpace.here]]
      rw [leGet_lePut, pow256_eight]
    · show BASE_ADDR + (vm.dataSpace.len + 8) = vm.dataSpace.here + 8
      rw [DataSpace.here]
      omega
  · intro vm' hrun herr
    by_cases hc : vm.cStack.len = 0
    · by_cases hfwd : vm.forwardLabels = []
      · exact ⟨hc, hfwd⟩
      · rw [VM.semicolon, if_neg (by simp [hc]),
          if_pos (by simpa [List.isEmpty_iff] using hfwd)] at hrun
        obtain rfl := Option.some.inj hrun
        exact Option.noConfusion herr
    · rw [VM.semicolon, if_pos hc] at hrun
      obtain rfl := Option.some.inj hrun
      exact Option.noConfusion herr

/-- C2 witness: on the concrete fresh VM (empty control stack, no forward
labels) `;` succeeds, leaving compile state with no error. -/
theorem C2_semicolon_witness :
    ∃ vm', baseVM.semicolon = some vm' ∧ vm'.lastError = none ∧
      vm'.isCompiling = false ∧ vm'.dataSpace.here = baseVM.dataSpace.here + 8 := by
  obtain ⟨vm', h1, h2, _, h4, _, h6⟩ :=
    (C2_semicolon baseVM (by decide)).2.1 rfl rfl
  exact ⟨vm', h1, by rw [h2]; rfl, h6, h4⟩

/-! ## Claim C5 — `@` and `!` bounds checks -/

/--
C5, counterexample to the claim as stated, at two addresses.  `addr =
start` is **not** a valid cell address: on a VM whose top of stack is
`start` (= `BASE_ADDR`, well inside `[start, limit)` with room for a
cell), `@` raises `INVALID_MEMORY_ADDRESS` — the source guards with
`start() < t`, strict, protecting the NULL system cell.  And `-1 @`
(address `2^64 - 1`, outside the range) does **not** raise
`INVALID_MEMORY_ADDRESS`: the `usize` sum `t + 8` overflows and the
program panics (`none`).
-/
theorem C5_fetch_counterexample :
    ({ baseVM with sStack := (Stack.fresh canaryS).push 0x40000000 } : VM).fetch.map
        (fun v => v.lastError) = some (some Exc.INVALID_MEMORY_ADDRESS) ∧
    ({ baseVM with sStack := (Stack.fresh canaryS).push 0x40000000 } : VM).dataSpace.start
        = 0x40000000 ∧
    0x40000000 + 8 ≤
      ({ baseVM with sStack := (Stack.fresh canaryS).push 0x40000000 } : VM).dataSpace.limit ∧
    ({ baseVM with sStack := (Stack.fresh canaryS).push (-1) } : VM).fetch.isNone = true := by
  refine ⟨?_, by decide, by decide, ?_⟩ <;> decide

/--
C5 (amended): with the arena limit below `2^64` (any real allocation),
`@` and `!` succeed exactly when `start < addr` and `addr + cell ≤ limit`
(strict at `start`: the NULL cell at `start` is rejected); on success `@`
pushes the stored cell and `!` stores the cell, leaving `last_error`
untouched.  An out-of-range address raises `INVALID_MEMORY_ADDRESS`
only when `addr + 8` does not overflow `usize`; for the top eight
addresses (`addr ≥ 2^64 - 8`) the addition overflows and the program
panics instead of aborting.
-/
theorem C5_fetch_store (vm : VM) (addr : Nat)
    (htop : toUnsigned (vm.sStack.inner ((vm.sStack.len + 255) % 256)) = addr)
    (hlim : vm.dataSpace.limit < 2 ^ 64) :
    ((vm.dataSpace.start < addr ∧ addr + 8 ≤ vm.dataSpace.limit →
        ∃ vmf, vm.fetch = some vmf ∧
          vmf.sStack = (vm.sStack.pop).2.push (vm.dataSpace.get_isize addr) ∧
          vmf.lastError = vm.lastError ∧
          vmf.dataSpace = vm.dataSpace) ∧
      (2 ^ 64 ≤ addr + 8 → vm.fetch = none) ∧
      (addr + 8 < 2 ^ 64 →
        ¬(vm.dataSpace.start < addr ∧ addr + 8 ≤ vm.dataSpace.limit) →
        ∃ vmf, vm.fetch = some vmf ∧
          vmf.lastError = some Exc.INVALID_MEMORY_ADDRESS)) ∧
    ((vm.dataSpace.start < addr ∧ addr + 8 ≤ vm.dataSpace.limit →
        ∃ vms, vm.store = some vms ∧
          vms.dataSpace = vm.dataSpace.put_isize
            (vm.sStack.inner ((vm.sStack.len + 254) % 256)) addr ∧
          vms.lastError = vm.lastError ∧
          vms.sStack = (vm.sStack.pop2).2) ∧
      (2 ^ 64 ≤ addr + 8 → vm.store = none) ∧
      (addr + 8 < 2 ^ 64 →
        ¬(vm.dataSpace.start < addr ∧ addr + 8 ≤ vm.dataSpace.limit) →
        ∃ vms, vm.store = some vms ∧
          vms.lastError = some Exc.INVALID_MEMORY_ADDRESS)) := by
  have hfetch : vm.fetch =
      (if 2 ^ 64 ≤ addr + 8 then none
      else if vm.dataSpace.start < addr ∧ addr + 8 ≤ vm.dataSpace.limit then
        some { vm with sStack := (vm.sStack.pop).2.push (vm.dataSpace.get_isize addr) }
      else some (VM.abortWith Exc.INVALID_MEMORY_ADDRESS
        { vm with sStack := (vm.sStack.pop).2 }).1) := by
    rw [VM.fetch]
    show (if 2 ^ 64 ≤ toUnsigned (vm.sStack.inner ((vm.sStack.len + 255) % 256)) + 8
          then none
          else if vm.dataSpace.start < toUnsigned (vm.sStack.inner ((vm.sStack.len + 255) % 256))
            ∧ toUnsigned (vm.sStack.inner ((vm.sStack.len + 255) % 256)) + 8
              ≤ vm.dataSpace.limit then _ else _) = _
    rw [htop]
    rfl
  have hstore : vm.store =
      (if 2 ^ 64 ≤ addr + 8 then none
      else if vm.dataSpace.start < addr ∧ addr + 8 ≤ vm.dataSpace.limit then
        some { vm with
          sStack := (vm.sStack.pop2).2
          dataSpace := vm.dataSpace.put_isize
            (vm.sStack.inner ((vm.sStack.len + 254) % 256)) addr }
      else some (VM.abortWith Exc.INVALID_MEMORY_ADDRESS
        { vm with sStack := (vm.sStack.pop2).2 }).1) := by
    rw [VM.store]
    show (if 2 ^ 64 ≤ toUnsigned (vm.sStack.inner ((vm.sStack.len + 255) % 256)) + 8
          then none
          else if vm.dataSpace.start < toUnsigned (vm.sStack.inner ((vm.sStack.len + 255) % 256))
            ∧ toUnsigned (vm.sStack.inner ((vm.sStack.len + 255) % 256)) + 8
              ≤ vm.dataSpace.limit then _ else _) = _
    rw [htop]
    rfl
  refine ⟨⟨?_, ?_, ?_⟩, ⟨?_, ?_, ?_⟩⟩
  · intro h
    rw [hfetch, if_neg (by omega), if_pos h]
    exact ⟨_, rfl, rfl, rfl, rfl⟩
  · intro h
    rw [hfetch, if_pos h]
  · intro h1 h2
    rw [hfetch, if_neg (by omega), if_neg h2]
    exact ⟨_, rfl, rfl⟩
  · intro h
    rw [hstore, if_neg (by omega), if_pos h]
    exact ⟨_, rfl, rfl, rfl, rfl⟩
  · intro h
    rw [hstore, if_pos h]
  · intro h1 h2
    rw [hstore, if_neg (by omega), if_neg h2]
    exact ⟨_, rfl, rfl⟩

/-- C5 witness: on the concrete VM, a fetch of the `BASE` system cell
(`start + 8`) succeeds and pushes its value 10; a fetch of `start` fails
with `INVALID_MEMORY_ADDRESS`. -/
theorem C5_fetch_store_witness :
    (∃ vmf, ({ baseVM with sStack := (Stack.fresh canaryS).push 0x40000008 } : VM).fetch
        = some vmf ∧ vmf.lastError = none ∧ vmf.sStack.inner 0 = 10) ∧
    (∃ vmg, ({ baseVM with sStack := (Stack.fresh canaryS).push 0x40000000 } : VM).fetch
        = some vmg ∧ vmg.lastError = some Exc.INVALID_MEMORY_ADDRESS) := by
  obtain ⟨vmf, hf, hs, he, -⟩ :=
    (C5_fetch_store { baseVM with sStack := (Stack.fresh canaryS).push 0x40000008 }
      0x40000008 (by decide) (by decide)).1.1 (by decide)
  obtain ⟨vmg, hg, heg⟩ :=
    (C5_fetch_store { baseVM with sStack := (Stack.fresh canaryS).push 0x40000000 }
      0x40000000 (by decide) (by decide)).1.2.2 (by decide) (by decide)
  refine ⟨⟨vmf, hf, ?_, ?_⟩, ⟨vmg, hg, heg⟩⟩
  · rw [he]
    rfl
  · rw [hs]
    decide

/-! ## Claim C4 — stack canaries detect 129 pushes -/

set_option maxRecDepth 4000 in
/--
C4, counterexample to the claim as stated: pushing 129 copies of the
canary value itself onto a freshly-reset parameter stack is reported as
`STACK_UNDERFLOW`, not `STACK_OVERFLOW` — the 65th push overwrites slot 64
with the canary value, so the overflow test `inner[64] != canary` is
blind, the length test `64 < len ≤ 128` fails at `len = 129`, and the
underflow test `len > 128` fires first.
-/
theorem C4_canaries_counterexample :
    ({ baseVM with
       sStack := (Stack.fresh canaryS).pushList (List.replicate 129 canaryS)
     } : VM).checkStacks.lastError = some Exc.STACK_UNDERFLOW ∧
    ({ baseVM with
       sStack := (Stack.fresh canaryS).pushList (List.replicate 129 canaryS)
     } : VM).checkStacks.lastError ≠ some Exc.STACK_OVERFLOW := by
  constructor <;> decide

/--
C4 (amended): pushing 129 values onto a freshly-reset parameter stack is
detected by the next `check_stacks`, which aborts with `STACK_OVERFLOW`
provided the 65th value pushed differs from the canary (it lands in slot
64, tripping `inner[64] != canary`); when the 65th value equals the
canary the overflow test is blind and the same state is reported as
`STACK_UNDERFLOW` via `len > 128` instead.  Overflow is
`inner[64] != canary || 64 < len <= 128`; underflow is
`inner[255] != canary || len > 128`.
-/
theorem C4_canaries (vm : VM) (can : Int) (vs : List Int)
    (hs : vm.sStack = (Stack.fresh can).pushList vs)
    (hlen : vs.length = 129)
    (hcan : vs.getD 64 can ≠ can) :
    vm.checkStacks.lastError = some Exc.STACK_OVERFLOW := by
  obtain ⟨h1, h2, h3, h4⟩ := pushList_spec vs (Stack.fresh can) (by
    show 0 + vs.length ≤ 255
    omega)
  have h64 : vm.sStack.inner 64 = vs.get ⟨64, by omega⟩ := by
    rw [hs]
    have := h4 64 (by omega)
    simpa using this
  have hcany : vm.sStack.canary = can := by rw [hs]; exact h2
  have hget : vs.getD 64 can = vs.get ⟨64, by omega⟩ :=
    List.getD_eq_get vs can (by omega)
  have hov : vm.sStack.overflow = true := by
    rw [Stack.overflow, h64, hcany]
    have hne : vs.get ⟨64, by omega⟩ ≠ can := by rw [← hget]; exact hcan
    simp only [Bool.or_eq_true, decide_eq_true_eq]
    exact Or.inl (by simpa using hne)
  rw [VM.checkStacks, if_pos hov]
  rfl

set_option maxRecDepth 4000 in
/-- C4 witness: 129 copies of 7 (≠ canary) trip `STACK_OVERFLOW`. -/
theorem C4_canaries_witness :
    ({ baseVM with
       sStack := (Stack.fresh canaryS).pushList (List.replicate 129 7)
     } : VM).checkStacks.lastError = some Exc.STACK_OVERFLOW :=
  C4_canaries _ canaryS (List.replicate 129 7) rfl (by decide) (by decide)

/-! ## Claim C10 — `pause` -/

/--
The claim's description of `pause`'s successor: the first awake task among
`current+1, current+2, …` cyclically modulo `NUM_TASKS` (offsets 1 through
`NUM_TASKS`, so possibly the current task itself). -/
def specNext (awake : Nat → Bool) (i : Nat) : Option Nat :=
  ((List.range NUM_TASKS).map fun k => (i + k + 1) % NUM_TASKS).find? awake

theorem pauseAux_none (awake : Nat → Bool) (hall : ∀ j, j < NUM_TASKS → awake j = false) :
    ∀ (fuel i : Nat), pauseAux awake fuel i = none := by
  intro fuel
  induction fuel with
  | zero => intro i; rfl
  | succ fuel ih =>
    intro i
    rw [pauseAux]
    have hj : awake ((i + 1) % NUM_TASKS) = false :=
      hall _ (Nat.mod_lt _ (by norm_num [NUM_TASKS]))
    simp only [hj, Bool.false_eq_true, if_false]
    exact ih _

theorem cover_offset (i j : Nat) (hj : j < 5) :
    ∃ k, 1 ≤ k ∧ k ≤ 5 ∧ (i + k) % 5 = j := by
  refine ⟨(j + 5 - (i + 1) % 5) % 5 + 1, by omega, by omega, by omega⟩

theorem pauseAux_found (awake : Nat → Bool) :
    ∀ (k i fuel : Nat), k + 1 ≤ fuel →
      awake ((i + k + 1) % NUM_TASKS) = true →
      (∀ k', k' < k → awake ((i + k' + 1) % NUM_TASKS) = false) →
      pauseAux awake fuel i = some ((i + k + 1) % NUM_TASKS) := by
  intro k
  induction k with
  | zero =>
    intro i fuel hfuel hawake _
    obtain ⟨f, rfl⟩ : ∃ f, fuel = f + 1 := ⟨fuel - 1, by omega⟩
    rw [pauseAux]
    simp only [show i + 0 + 1 = i + 1 from by omega] at hawake
    simp [hawake]
  | succ k ih =>
    intro i fuel hfuel hawake hmiss
    obtain ⟨f, rfl⟩ : ∃ f, fuel = f + 1 := ⟨fuel - 1, by omega⟩
    rw [pauseAux]
    have h0 : awake ((i + 1) % NUM_TASKS) = false := by
      have := hmiss 0 (by omega)
      simpa using this
    simp only [h0, Bool.false_eq_true, if_false]
    have hshift : ∀ m : Nat, ((i + 1) % NUM_TASKS + m + 1) % NUM_TASKS
        = (i + m + 2) % NUM_TASKS := by
      intro m
      show ((i + 1) % 5 + m + 1) % 5 = (i + m + 2) % 5
      omega
    rw [ih ((i + 1) % NUM_TASKS) f (by omega)
      (by rw [hshift]; rw [show i + (k + 1) + 1 = i + k + 2 from by omega] at hawake; exact hawake)
      (fun k' hk' => by
        rw [hshift]
        have := hmiss (k' + 1) (by omega)
        rw [show i + (k' + 1) + 1 = i + k' + 2 from by omega] at this
        exact this)]
    rw [hshift, show i + (k + 1) + 1 = i + k + 2 from by omega]

/--
C10: `pause` terminates exactly when at least one of the `NUM_TASKS` tasks
is awake; when it terminates it yields the first awake task among
`current+1, current+2, …` cyclically (possibly the current task itself),
and when no task is awake the scan never returns (`none` for every fuel).
-/
theorem C10_pause (awake : Nat → Bool) (i fuel : Nat) (hfuel : NUM_TASKS ≤ fuel) :
    pauseAux awake fuel i = specNext awake i ∧
    ((specNext awake i).isSome ↔ ∃ j, j < NUM_TASKS ∧ awake j = true) ∧
    ((∀ j, j < NUM_TASKS → awake j = false) → ∀ f, pauseAux awake f i = none) := by
  have hfuel5 : 5 ≤ fuel := hfuel
  have hlist : (List.range NUM_TASKS).map (fun k => (i + k + 1) % NUM_TASKS)
      = [(i + 1) % 5, (i + 2) % 5, (i + 3) % 5, (i + 4) % 5, i % 5] := by
    show (List.range 5).map (fun k => (i + k + 1) % 5) = _
    simp only [List.range_succ, List.range_zero, List.map_append, List.map_cons,
      List.map_nil, List.nil_append, List.cons_append, List.append_nil, List.cons.injEq,
      and_true]
    norm_num
    omega
  refine ⟨?_, ?_, fun hall f => pauseAux_none awake hall f i⟩
  · by_cases h1 : awake ((i + 1) % 5)
    · rw [specNext, hlist, List.find?_cons_of_pos _ h1]
      rw [pauseAux_found awake 0 i fuel (by omega)
        (by show awake ((i + 0 + 1) % 5) = true
            rw [show i + 0 + 1 = i + 1 from by omega]; exact h1)
        (fun k' hk' => absurd hk' (by omega))]
      show some ((i + 0 + 1) % 5) = _
      rw [show i + 0 + 1 = i + 1 from by omega]
    · by_cases h2 : awake ((i + 2) % 5)
      · rw [specNext, hlist, List.find?_cons_of_neg _ h1, List.find?_cons_of_pos _ h2]
        rw [pauseAux_found awake 1 i fuel (by omega)
          (by show awake ((i + 1 + 1) % 5) = true
              rw [show i + 1 + 1 = i + 2 from by omega]; exact h2)
          (fun k' hk' => by
            obtain rfl : k' = 0 := by omega
            show awake ((i + 0 + 1) % 5) = false
            rw [show i + 0 + 1 = i + 1 from by omega]
            exact Bool.eq_false_iff.mpr h1)]
        show some ((i + 1 + 1) % 5) = _
        rw [show i + 1 + 1 = i + 2 from by omega]
      · by_cases h3 : awake ((i + 3) % 5)
        · rw [specNext, hlist, List.find?_cons_of_neg _ h1, List.find?_cons_of_neg _ h2,
            List.find?_cons_of_pos _ h3]
          rw [pauseAux_found awake 2 i fuel (by omega)
            (by show awake ((i + 2 + 1) % 5) = true
                rw [show i + 2 + 1 = i + 3 from by omega]; exact h3)
            (fun k' hk' => by
              interval_cases k'
              · show awake ((i + 0 + 1) % 5) = false
                rw [show i + 0 + 1 = i + 1 from by omega]
                exact Bool.eq_false_iff.mpr h1
              · show awake ((i + 1 + 1) % 5) = false
                rw [show i + 1 + 1 = i + 2 from by omega]
                exact Bool.eq_false_iff.mpr h2)]
          show some ((i + 2 + 1) % 5) = _
          rw [show i + 2 + 1 = i + 3 from by omega]
        · by_cases h4 : awake ((i + 4) % 5)
          · rw [specNext, hlist, List.find?_cons_of_neg _ h1, List.find?_cons_of_neg _ h2,
              List.find?_cons_of_neg _ h3, List.find?_cons_of_pos _ h4]
            rw [pauseAux_found awake 3 i fuel (by omega)
              (by show awake ((i + 3 + 1) % 5) = true
                  rw [show i + 3 + 1 = i + 4 from by omega]; exact h4)
              (fun k' hk' => by
                interval_cases k'
                · show awake ((i + 0 + 1) % 5) = false
                  rw [show i + 0 + 1 = i + 1 from by omega]
                  exact Bool.eq_false_iff.mpr h1
                · show awake ((i + 1 + 1) % 5) = false
                  rw [show i + 1 + 1 = i + 2 from by omega]
                  exact Bool.eq_false_iff.mpr h2
                · show awake ((i + 2 + 1) % 5) = false
                  rw [show i + 2 + 1 = i + 3 from by omega]
                  exact Bool.eq_false_iff.mpr h3)]
            show some ((i + 3 + 1) % 5) = _
            rw [show i + 3 + 1 = i + 4 from by omega]
          · by_cases h5 : awake (i % 5)
            · rw [specNext, hlist, List.find?_cons_of_neg _ h1, List.find?_cons_of_neg _ h2,
                List.find?_cons_of_neg _ h3, List.find?_cons_of_neg _ h4,
                List.find?_cons_of_pos _ h5]
              rw [pauseAux_found awake 4 i fuel (by omega)
                (by show awake ((i + 4 + 1) % 5) = true
                    rw [show (i + 4 + 1) % 5 = i % 5 from by omega]; exact h5)
                (fun k' hk' => by
                  interval_cases k'
                  · show awake ((i + 0 + 1) % 5) = false
                    rw [show i + 0 + 1 = i + 1 from by omega]
                    exact Bool.eq_false_iff.mpr h1
                  · show awake ((i + 1 + 1) % 5) = false
                    rw [show i + 1 + 1 = i + 2 from by omega]
                    exact Bool.eq_false_iff.mpr h2
                  · show awake ((i + 2 + 1) % 5) = false
                    rw [show i + 2 + 1 = i + 3 from by omega]
                    exact Bool.eq_false_iff.mpr h3
                  · show awake ((i + 3 + 1) % 5) = false
                    rw [show i + 3 + 1 = i + 4 from by omega]
                    exact Bool.eq_false_iff.mpr h4)]
              show some ((i + 4 + 1) % 5) = _
              rw [show (i + 4 + 1) % 5 = i % 5 from by omega]
            · have hall : ∀ j, j < NUM_TASKS → awake j = false := by
                intro j hj
                obtain ⟨k, hk1, hk5, hkj⟩ := cover_offset i j hj
                interval_cases k
                · rw [← hkj]; exact Bool.eq_false_iff.mpr h1
                · rw [← hkj]; exact Bool.eq_false_iff.mpr h2
                · rw [← hkj]; exact Bool.eq_false_iff.mpr h3
                · rw [← hkj]; exact Bool.eq_false_iff.mpr h4
                · rw [← hkj, show (i + 5) % 5 = i % 5 from by omega]
                  exact Bool.eq_false_iff.mpr h5
              rw [pauseAux_none awake hall fuel i]
              rw [specNext, hlist, List.find?_cons_of_neg _ h1, List.find?_cons_of_neg _ h2,
                List.find?_cons_of_neg _ h3, List.find?_cons_of_neg _ h4,
                List.find?_cons_of_neg _ h5]
              rfl
  · constructor
    · intro hsome
      rw [Option.isSome_iff_exists] at hsome
      obtain ⟨j, hj⟩ := hsome
      rw [specNext, hlist] at hj
      have hawake := List.find?_some hj
      have hmem := List.mem_of_find?_eq_some hj
      refine ⟨j, ?_, hawake⟩
      show j < 5
      simp only [List.mem_cons, List.not_mem_nil, or_false] at hmem
      rcases hmem with h | h | h | h | h <;> omega
    · rintro ⟨j, hj, hawake⟩
      by_contra hnone
      rw [Option.not_isSome_iff_eq_none] at hnone
      rw [specNext, hlist] at hnone
      obtain ⟨k, hk1, hk5, hkj⟩ := cover_offset i j hj
      have hmem : j ∈ [(i + 1) % 5, (i + 2) % 5, (i + 3) % 5, (i + 4) % 5, i % 5] := by
        interval_cases k
        · rw [← hkj]; simp
        · rw [← hkj]; simp
        · rw [← hkj]; simp
        · rw [← hkj]; simp
        · rw [← hkj, show (i + 5) % 5 = i % 5 from by omega]; simp
      have := List.find?_eq_none.mp hnone j hmem
      exact absurd hawake (by simpa using this)

/-- C10 witness: with only task 0 awake and current task 2, `pause` with
any fuel ≥ 5 switches to task 0; with no task awake the scan never
returns. -/
theorem C10_pause_witness :
    pauseAux (fun j => decide (j = 0)) 5 2 = some 0 ∧
    (∀ f, pauseAux (fun _ => false) f 2 = none) := by
  constructor
  · rw [(C10_pause (fun j => decide (j = 0)) 2 5 (by norm_num [NUM_TASKS])).1]
    decide
  · exact (C10_pause (fun _ => false) 2 5 (by norm_num [NUM_TASKS])).2.2
      (fun j _ => rfl)

/-! ## Claim C3 — `do … loop` via the token-threaded inner interpreter

The primitives a compiled `do … loop` executes (`_do`, `_loop`, `1+`,
`exit`, `branch`) read and write exactly the parameter stack, the return
stack, the instruction pointer, the word pointer and (read-only) the data
space; `MiniVM` carries those components of the VM state, plus
`last_error` so that the fault path of `execute_word` is represented.

The XT constants are the boot-order indices assigned by `add_core`:
`""` = 0, `noop` = 1, `exit` = 2, …, `_do` = 8, `_loop` = 10, …, `1+` = 42.
Any other cell value aborts with `UNSUPPORTED_OPERATION`, as
`execute_word` does for an out-of-range XT. -/

def xtExit : Nat := 2
def xtDo : Nat := 8
def xtLoop : Nat := 10
def xtOnePlus : Nat := 42

/-- The slice of the VM state that the compiled loop touches. -/
structure MiniVM where
  sStack : Stack Int
  rStack : Stack Int
  instructionPointer : Nat
  wordPointer : Nat
  lastError : Option Exc
  dataSpace : DataSpace

namespace MiniVM

/-- `Core::branch`: load the instruction pointer from the operand cell at
`ip` (`get_isize(ip) as usize`). -/
def branchOp (vm : MiniVM) : MiniVM :=
  { vm with instructionPointer := toUnsigned (vm.dataSpace.get_isize vm.instructionPointer) }

/-- `Core::_do`: save `ip` (the leave-operand address) on the return stack,
skip the operand, pop limit `n` and index `t`, and push the MIN-biased
pair `rn = t - rt`, `rt = MIN + t - n` (all wrapping). -/
def opDo (vm : MiniVM) : MiniVM :=
  let ip := vm.instructionPointer
  let r1 := vm.rStack.push (wrap (Int.ofNat ip))
  let vm1 := { vm with rStack := r1, instructionPointer := ip + 8 }
  let p := vm1.sStack.pop2
  let n := p.1.1
  let t := p.1.2
  let rt := wrap (minI + t - n)
  let rn := wrap (t - rt)
  { vm1 with sStack := p.2, rStack := r1.push2 rn rt }

/-- `Core::_loop`: pop `rt`; on `checked_add(1)` success push `rt + 1` and
branch back, otherwise drop the remaining loop parameters and skip the
operand.  For a representable `rt` (`rt ≤ isize::MAX`), `checked_add(1)`
fails exactly when `rt + 1 > isize::MAX`. -/
def opLoop (vm : MiniVM) : MiniVM :=
  let p := vm.rStack.pop
  let rt := p.1
  if maxI < rt + 1 then
    let q := p.2.pop2
    { vm with rStack := q.2, instructionPointer := vm.instructionPointer + 8 }
  else
    branchOp { vm with rStack := p.2.push (rt + 1) }

/-- `Core::one_plus` (`1+`): `t.wrapping_add(1)` in place on the top slot. -/
def opOnePlus (vm : MiniVM) : MiniVM :=
  let slen := vm.sStack.len
  let t := vm.sStack.inner ((slen + 255) % 256)
  { vm with sStack :=
      { vm.sStack with inner := wr vm.sStack.inner ((slen + 255) % 256) (wrap (t + 1)) } }

/-- `Core::exit`: pop the return stack into the instruction pointer. -/
def opExit (vm : MiniVM) : MiniVM :=
  let rlen := (vm.rStack.len + 255) % 256
  { vm with
    instructionPointer := toUnsigned (vm.rStack.inner rlen)
    rStack := { vm.rStack with len := rlen } }

/-- `execute_word` restricted to the XTs the compiled loop contains; any
other value takes `abort_with(UNSUPPORTED_OPERATION)` (shown here on the
carried fields: parameter stack cleared, error recorded). -/
def loopAction (w : Nat) (vm : MiniVM) : MiniVM :=
  if w = xtDo then vm.opDo
  else if w = xtLoop then vm.opLoop
  else if w = xtOnePlus then vm.opOnePlus
  else if w = xtExit then vm.opExit
  else { vm with sStack := vm.sStack.reset,
                 lastError := some Exc.UNSUPPORTED_OPERATION }

/-- One iteration of `Core::run`'s body: read the XT cell at `ip`, advance
`ip` by one cell, set the word pointer and dispatch. -/
def stepForth (vm : MiniVM) : MiniVM :=
  let ip := vm.instructionPointer
  let w := toUnsigned (vm.dataSpace.get_isize ip)
  loopAction w { vm with instructionPointer := ip + 8, wordPointer := w }

/-- `Core::run` with fuel: loop while
`start <= ip && ip + size_of::<isize>() <= limit`. -/
def runFuel : Nat → MiniVM → MiniVM
  | 0, vm => vm
  | f + 1, vm =>
    if vm.dataSpace.start ≤ vm.instructionPointer ∧
        vm.instructionPointer + 8 ≤ vm.dataSpace.limit
    then runFuel f vm.stepForth
    else vm

end MiniVM

/-- Write a list of cells into a raw byte store, 8 bytes each. -/
def putCells (m : Nat → Nat) (off : Nat) : List Nat → Nat → Nat
  | [] => m
  | v :: rest => putCells (lePut m off v 8) (off + 8) rest

/-- The threaded code that `: t 1 n 0 do 1+ loop ;` compiles for the loop
body, laid out by `imm_do` (cell 0: `_do`; cell 1: the leave operand,
patched by `imm_loop` to the address after the loop), the body (`1+`),
`imm_loop` (cells 3–4: `_loop` with the do-part operand `BASE+16`), and
the `exit` compiled by `;` (cell 5, address `BASE+40`). -/
def loopProgCells : List Nat :=
  [xtDo, BASE_ADDR + 40, xtOnePlus, xtLoop, BASE_ADDR + 16, xtExit]

/-- The data space holding the compiled loop. -/
def progDS : DataSpace :=
  { mem := putCells (fun _ => 0) 0 loopProgCells, len := 48, cap := 48 }

/-- The machine state after `1 n 0` executed: data stack `[1, n, 0]`,
return stack holding the caller's (out-of-range) instruction pointer 0,
`ip` at the `_do` cell. -/
def loopInit (n : Int) : MiniVM :=
  { sStack := (((Stack.fresh canaryS).push 1).push n).push 0
    rStack := (Stack.fresh canaryS).push 0
    instructionPointer := BASE_ADDR
    wordPointer := 0
    lastError := none
    dataSpace := progDS }

/-- The machine state at the head of the loop body (`ip` at the `1+`
cell): the data stack holds the accumulator in slot 0, the return stack
holds the saved leave address, `rn` and `rt` (slot 3); `f`, `g` are the
underlying slot contents, `wp` the word pointer of the previously
executed word. -/
def loopHead (ds : DataSpace) (f g : Nat → Int) (acc rt : Int) (wp : Nat) : MiniVM :=
  { sStack := { inner := wr f 0 acc, len := 1, canary := canaryS }
    rStack := { inner := wr g 3 rt, len := 4, canary := canaryS }
    instructionPointer := BASE_ADDR + 16
    wordPointer := wp
    lastError := none
    dataSpace := ds }

/-- The number of loop iterations: `MAX - rt0` further increments succeed
before `checked_add` overflows, after the initial body execution. -/
def kOf (n : Int) : Nat := (maxI - wrap (minI - n)).toNat


theorem toUnsigned_ofNat (m : Nat) (h : m < 2 ^ 64) : toUnsigned (Int.ofNat m) = m := by
  show ((Int.ofNat m) % 2 ^ 64).toNat = m
  rw [Int.ofNat_eq_natCast, Int.emod_eq_of_lt (by positivity) (by exact_mod_cast h)]
  simp

/-- Effect of `1+` on a loop-head state (any instruction pointer). -/
theorem opOnePlus_head (ds : DataSpace) (f g : Nat → Int) (acc rt : Int) (wp ip : Nat) :
    MiniVM.opOnePlus { loopHead ds f g acc rt wp with instructionPointer := ip }
      = { loopHead ds (wr f 0 acc) g (wrap (acc + 1)) rt wp with
          instructionPointer := ip } := by
  simp only [MiniVM.opOnePlus, loopHead]
  norm_num [wr_same]

theorem opLoop_head (ds : DataSpace) (f g : Nat → Int) (acc rt : Int) (wp : Nat)
    (hrt : ¬ maxI < rt + 1) :
    MiniVM.opLoop { loopHead ds f g acc rt wp with instructionPointer := BASE_ADDR + 32 }
      = { loopHead ds f (wr g 3 rt) acc (rt + 1) wp with
          instructionPointer := toUnsigned (ds.get_isize (BASE_ADDR + 32)) } := by
  simp only [MiniVM.opLoop, MiniVM.branchOp, Stack.pop, Stack.pop2, Stack.push, loopHead]
  norm_num [wr_same, hrt]

theorem opLoop_final (ds : DataSpace) (f g : Nat → Int) (acc rt : Int) (wp : Nat)
    (hrt : maxI < rt + 1) :
    MiniVM.opLoop { loopHead ds f g acc rt wp with instructionPointer := BASE_ADDR + 32 }
      = { loopHead ds f g acc rt wp with
          instructionPointer := BASE_ADDR + 40
          rStack := { inner := wr g 3 rt, len := 1, canary := canaryS } } := by
  simp only [MiniVM.opLoop, MiniVM.branchOp, Stack.pop, Stack.pop2, Stack.push, loopHead]
  norm_num [wr_same, hrt]

theorem opExit_head (ds : DataSpace) (f g : Nat → Int) (acc rt : Int) (wp ip : Nat)
    (hg0 : g 0 = 0) :
    MiniVM.opExit { loopHead ds f g acc rt wp with
                    instructionPointer := ip
                    rStack := { inner := wr g 3 rt, len := 1, canary := canaryS } }
      = { loopHead ds f g acc rt wp with
          instructionPointer := 0
          rStack := { inner := wr g 3 rt, len := 0, canary := canaryS } } := by
  simp only [MiniVM.opExit, loopHead]
  norm_num [wr_other, hg0, toUnsigned]

/-- `run` does nothing once the instruction pointer is out of range. -/
theorem runFuel_halted (vm : MiniVM)
    (h : ¬(vm.dataSpace.start ≤ vm.instructionPointer ∧
          vm.instructionPointer + 8 ≤ vm.dataSpace.limit)) :
    ∀ fuel, MiniVM.runFuel fuel vm = vm := by
  intro fuel
  cases fuel with
  | zero => rfl
  | succ f => rw [MiniVM.runFuel, if_neg h]

theorem wrap_add_congr (c x : Int) : wrap (wrap x + c) = wrap (x + c) := by
  apply wrap_congr
  obtain ⟨k, hk⟩ := wrap_sub_self_dvd x
  exact ⟨k, by omega⟩

/-- One `run` iteration from a state whose `ip` cell reads as `w`. -/
theorem stepForth_eq (vm : MiniVM) (w : Nat)
    (hw : toUnsigned (vm.dataSpace.get_isize vm.instructionPointer) = w) :
    vm.stepForth = MiniVM.loopAction w
      { vm with instructionPointer := vm.instructionPointer + 8, wordPointer := w } := by
  show MiniVM.loopAction (toUnsigned (vm.dataSpace.get_isize vm.instructionPointer))
      { vm with
        instructionPointer := vm.instructionPointer + 8
        wordPointer := toUnsigned (vm.dataSpace.get_isize vm.instructionPointer) } = _
  rw [hw]

/-- Two steps of `run` from the loop head with a non-final index: `1+`
bumps the accumulator, then `_loop` increments `rt` and branches back. -/
theorem loopStep2 (ds : DataSpace) (hcap : ds.cap = 48)
    (c2 : toUnsigned (ds.get_isize (BASE_ADDR + 16)) = xtOnePlus)
    (c3 : toUnsigned (ds.get_isize (BASE_ADDR + 24)) = xtLoop)
    (c4 : toUnsigned (ds.get_isize (BASE_ADDR + 32)) = BASE_ADDR + 16)
    (m : Nat) (f g : Nat → Int) (acc rt : Int) (wp : Nat)
    (hrt : ¬ maxI < rt + 1) :
    MiniVM.runFuel (m + 1 + 1) (loopHead ds f g acc rt wp)
      = MiniVM.runFuel m
          (loopHead ds (wr f 0 acc) (wr g 3 rt) (wrap (acc + 1)) (rt + 1) xtLoop) := by
  have hlim : ds.limit = BASE_ADDR + 48 := by rw [DataSpace.limit, hcap]
  rw [MiniVM.runFuel, if_pos (by
    refine ⟨by show BASE_ADDR ≤ BASE_ADDR + 16; omega, ?_⟩
    show BASE_ADDR + 16 + 8 ≤ ds.limit
    rw [hlim]; omega)]
  rw [stepForth_eq (loopHead ds f g acc rt wp) xtOnePlus c2]
  show MiniVM.runFuel (m + 1) (MiniVM.opOnePlus
    { loopHead ds f g acc rt xtOnePlus with
      instructionPointer := BASE_ADDR + 16 + 8 }) = _
  rw [opOnePlus_head]
  rw [MiniVM.runFuel, if_pos (by
    refine ⟨by show BASE_ADDR ≤ BASE_ADDR + 16 + 8; omega, ?_⟩
    show BASE_ADDR + 16 + 8 + 8 ≤ ds.limit
    rw [hlim]; omega)]
  rw [stepForth_eq { loopHead ds (wr f 0 acc) g (wrap (acc + 1)) rt xtOnePlus with
        instructionPointer := BASE_ADDR + 16 + 8 } xtLoop c3]
  show MiniVM.runFuel m (MiniVM.opLoop
    { loopHead ds (wr f 0 acc) g (wrap (acc + 1)) rt xtLoop with
      instructionPointer := BASE_ADDR + 32 }) = _
  rw [opLoop_head ds (wr f 0 acc) g (wrap (acc + 1)) rt xtLoop hrt, c4]
  rfl

/-- Three final steps from the loop head with the final index: `1+`, the
`_loop` overflow exit, then `exit` returns to the saved (out-of-range)
caller address 0. -/
theorem loopFinal3 (ds : DataSpace) (hcap : ds.cap = 48)
    (c2 : toUnsigned (ds.get_isize (BASE_ADDR + 16)) = xtOnePlus)
    (c3 : toUnsigned (ds.get_isize (BASE_ADDR + 24)) = xtLoop)
    (c5 : toUnsigned (ds.get_isize (BASE_ADDR + 40)) = xtExit)
    (f g : Nat → Int) (acc rt : Int) (wp : Nat)
    (hrt : maxI < rt + 1) (hg0 : g 0 = 0) (m : Nat) :
    MiniVM.runFuel (m + 3) (loopHead ds f g acc rt wp)
      = { loopHead ds (wr f 0 acc) g (wrap (acc + 1)) rt xtExit with
          instructionPointer := 0
          rStack := { inner := wr g 3 rt, len := 0, canary := canaryS } } := by
  have hlim : ds.limit = BASE_ADDR + 48 := by rw [DataSpace.limit, hcap]
  rw [show m + 3 = m + 1 + 1 + 1 from by omega]
  rw [MiniVM.runFuel, if_pos (by
    refine ⟨by show BASE_ADDR ≤ BASE_ADDR + 16; omega, ?_⟩
    show BASE_ADDR + 16 + 8 ≤ ds.limit
    rw [hlim]; omega)]
  rw [stepForth_eq (loopHead ds f g acc rt wp) xtOnePlus c2]
  show MiniVM.runFuel (m + 1 + 1) (MiniVM.opOnePlus
    { loopHead ds f g acc rt xtOnePlus with
      instructionPointer := BASE_ADDR + 16 + 8 }) = _
  rw [opOnePlus_head]
  rw [MiniVM.runFuel, if_pos (by
    refine ⟨by show BASE_ADDR ≤ BASE_ADDR + 16 + 8; omega, ?_⟩
    show BASE_ADDR + 16 + 8 + 8 ≤ ds.limit
    rw [hlim]; omega)]
  rw [stepForth_eq { loopHead ds (wr f 0 acc) g (wrap (acc + 1)) rt xtOnePlus with
        instructionPointer := BASE_ADDR + 16 + 8 } xtLoop c3]
  show MiniVM.runFuel (m + 1) (MiniVM.opLoop
    { loopHead ds (wr f 0 acc) g (wrap (acc + 1)) rt xtLoop with
      instructionPointer := BASE_ADDR + 32 }) = _
  rw [opLoop_final ds (wr f 0 acc) g (wrap (acc + 1)) rt xtLoop hrt]
  rw [MiniVM.runFuel, if_pos (by
    refine ⟨by show BASE_ADDR ≤ BASE_ADDR + 40; omega, ?_⟩
    show BASE_ADDR + 40 + 8 ≤ ds.limit
    rw [hlim])]
  rw [stepForth_eq { loopHead ds (wr f 0 acc) g (wrap (acc + 1)) rt xtLoop with
        instructionPointer := BASE_ADDR + 40
        rStack := { inner := wr g 3 rt, len := 1, canary := canaryS } } xtExit c5]
  show MiniVM.runFuel m (MiniVM.opExit
    { loopHead ds (wr f 0 acc) g (wrap (acc + 1)) rt xtExit with
      instructionPointer := BASE_ADDR + 40 + 8
      rStack := { inner := wr g 3 rt, len := 1, canary := canaryS } }) = _
  rw [opExit_head ds (wr f 0 acc) g (wrap (acc + 1)) rt xtExit (BASE_ADDR + 40 + 8) hg0]
  exact runFuel_halted _ (by
    intro hcond
    have h0 : BASE_ADDR ≤ 0 := hcond.1
    rw [BASE_ADDR] at h0
    omega) m

/-- Running the loop body from the head for `2k + 3` steps, where `rt` is
`k` increments short of `isize::MAX`: the accumulator is incremented
(wrapping) `k + 1` times and the machine halts at the caller address. -/
theorem loopRunAux (ds : DataSpace) (hcap : ds.cap = 48)
    (c2 : toUnsigned (ds.get_isize (BASE_ADDR + 16)) = xtOnePlus)
    (c3 : toUnsigned (ds.get_isize (BASE_ADDR + 24)) = xtLoop)
    (c4 : toUnsigned (ds.get_isize (BASE_ADDR + 32)) = BASE_ADDR + 16)
    (c5 : toUnsigned (ds.get_isize (BASE_ADDR + 40)) = xtExit) :
    ∀ (k : Nat) (f g : Nat → Int) (acc rt : Int) (wp : Nat),
      rt = maxI - k → g 0 = 0 →
      (MiniVM.runFuel (2 * k + 3) (loopHead ds f g acc rt wp)).sStack.len = 1 ∧
      (MiniVM.runFuel (2 * k + 3) (loopHead ds f g acc rt wp)).sStack.inner 0
        = wrap (acc + k + 1) ∧
      (MiniVM.runFuel (2 * k + 3) (loopHead ds f g acc rt wp)).lastError = none ∧
      (MiniVM.runFuel (2 * k + 3) (loopHead ds f g acc rt wp)).instructionPointer = 0 ∧
      (MiniVM.runFuel (2 * k + 3) (loopHead ds f g acc rt wp)).rStack.len = 0 := by
  intro k
  induction k with
  | zero =>
    intro f g acc rt wp hrt hg0
    have hfin := loopFinal3 ds hcap c2 c3 c5 f g acc rt wp
      (by rw [hrt]; push_cast; omega) hg0 0
    rw [show 2 * 0 + 3 = 0 + 3 from by omega, hfin]
    refine ⟨rfl, ?_, rfl, rfl, rfl⟩
    show wr (wr f 0 acc) 0 (wrap (acc + 1)) 0 = wrap (acc + (0 : Nat) + 1)
    rw [wr_same]
    norm_num
  | succ k ih =>
    intro f g acc rt wp hrt hg0
    have hrt' : ¬ maxI < rt + 1 := by
      rw [hrt]
      push_cast
      omega
    rw [show 2 * (k + 1) + 3 = 2 * k + 3 + 1 + 1 from by ring]
    rw [loopStep2 ds hcap c2 c3 c4 (2 * k + 3) f g acc rt wp hrt']
    have hrt2 : rt + 1 = maxI - k := by
      rw [hrt]
      push_cast
      ring
    have hg0' : wr g 3 rt 0 = 0 := by rw [wr_other g 3 0 rt (by omega)]; exact hg0
    obtain ⟨h1, h2, h3, h4, h5⟩ :=
      ih (wr f 0 acc) (wr g 3 rt) (wrap (acc + 1)) (rt + 1) xtLoop hrt2 hg0'
    refine ⟨h1, ?_, h3, h4, h5⟩
    rw [h2]
    rw [show wrap (acc + 1) + (k : Int) + 1 = wrap (acc + 1) + ((k : Int) + 1) from by ring]
    rw [wrap_add_congr]
    exact wrap_congr ⟨0, by push_cast; ring⟩


/-- Effect of `_do` on the initial state: save the leave address, consume
limit `n` and index `0`, and push the MIN-biased counter pair.  The slots
above the new stack tops keep their residual contents. -/
theorem opDo_init (n : Int) :
    MiniVM.opDo { loopInit n with instructionPointer := BASE_ADDR + 8, wordPointer := xtDo }
      = loopHead progDS
          (wr (wr (wr ((fun _ => canaryS) : Nat → Int) 0 1) 1 n) 2 0)
          (wr (wr (wr ((fun _ => canaryS) : Nat → Int) 0 0) 1
              (wrap (Int.ofNat (BASE_ADDR + 8))))
            2 (wrap (0 - wrap (minI + 0 - n))))
          1 (wrap (minI + 0 - n)) xtDo := by
  have hf : wr (wr (wr (wr ((fun _ => canaryS) : Nat → Int) 0 1) 1 n) 2 0) 0 1
      = wr (wr (wr ((fun _ => canaryS) : Nat → Int) 0 1) 1 n) 2 0 := by
    funext j
    by_cases hj : j = 0
    · subst hj
      rw [wr_same, wr_other _ _ _ _ (by omega), wr_other _ _ _ _ (by omega), wr_same]
    · rw [wr_other _ _ _ _ hj]
  have h1 : wr (wr (wr ((fun _ => canaryS) : Nat → Int) 0 1) 1 n) 2 0 1 = n := by
    rw [wr_other _ _ _ _ (by omega), wr_same]
  have h2 : wr (wr (wr ((fun _ => canaryS) : Nat → Int) 0 1) 1 n) 2 0 2 = 0 := by
    rw [wr_same]
  simp only [MiniVM.opDo, loopInit, loopHead, Stack.push, Stack.push2, Stack.pop2,
    Stack.fresh]
  norm_num [h1, h2, hf]

/-- The first `run` iteration from the initial state executes `_do`. -/
theorem loopFirst (n : Int) (fuel : Nat) :
    MiniVM.runFuel (fuel + 1) (loopInit n)
      = MiniVM.runFuel fuel
          (loopHead progDS
            (wr (wr (wr ((fun _ => canaryS) : Nat → Int) 0 1) 1 n) 2 0)
            (wr (wr (wr ((fun _ => canaryS) : Nat → Int) 0 0) 1
                (wrap (Int.ofNat (BASE_ADDR + 8))))
              2 (wrap (0 - wrap (minI + 0 - n))))
            1 (wrap (minI + 0 - n)) xtDo) := by
  rw [MiniVM.runFuel, if_pos (by
    refine ⟨by show BASE_ADDR ≤ BASE_ADDR; omega, ?_⟩
    show BASE_ADDR + 8 ≤ BASE_ADDR + 48
    omega)]
  rw [stepForth_eq (loopInit n) xtDo
    (show toUnsigned (progDS.get_isize BASE_ADDR) = xtDo by decide)]
  show MiniVM.runFuel fuel (MiniVM.opDo
    { loopInit n with instructionPointer := BASE_ADDR + 8, wordPointer := xtDo }) = _
  rw [opDo_init n]

/-- Full run of the compiled `1 n 0 do 1+ loop` program: `2 * kOf n + 4`
iterations leave a single cell `wrap (n + 1)` on the parameter stack, no
error, and the (halting) caller address 0 in the instruction pointer. -/
theorem loopMain (n : Int) :
    (MiniVM.runFuel (2 * kOf n + 4) (loopInit n)).sStack.len = 1 ∧
    (MiniVM.runFuel (2 * kOf n + 4) (loopInit n)).sStack.inner 0 = wrap (n + 1) ∧
    (MiniVM.runFuel (2 * kOf n + 4) (loopInit n)).lastError = none ∧
    (MiniVM.runFuel (2 * kOf n + 4) (loopInit n)).instructionPointer = 0 ∧
    (MiniVM.runFuel (2 * kOf n + 4) (loopInit n)).rStack.len = 0 := by
  have hwm := wrap_mem (minI - n)
  have hknat : (kOf n : Int) = maxI - wrap (minI - n) := by
    rw [kOf, Int.toNat_of_nonneg (by omega)]
  have hrt0 : wrap (minI + 0 - n) = wrap (minI - n) := by norm_num
  have hrt : wrap (minI + 0 - n) = maxI - (kOf n : Int) := by
    rw [hrt0]; omega
  have hg0 : (wr (wr (wr ((fun _ => canaryS) : Nat → Int) 0 0) 1
      (wrap (Int.ofNat (BASE_ADDR + 8))))
      2 (wrap (0 - wrap (minI + 0 - n)))) 0 = 0 := by
    rw [wr_other _ _ _ _ (by omega), wr_other _ _ _ _ (by omega), wr_same]
  rw [show 2 * kOf n + 4 = (2 * kOf n + 3) + 1 from by omega]
  rw [loopFirst n (2 * kOf n + 3)]
  obtain ⟨e1, e2, e3, e4, e5⟩ := loopRunAux progDS (by decide)
    (by decide) (by decide) (by decide) (by decide)
    (kOf n)
    (wr (wr (wr ((fun _ => canaryS) : Nat → Int) 0 1) 1 n) 2 0)
    (wr (wr (wr ((fun _ => canaryS) : Nat → Int) 0 0) 1
        (wrap (Int.ofNat (BASE_ADDR + 8))))
      2 (wrap (0 - wrap (minI + 0 - n))))
    1 (wrap (minI + 0 - n)) xtDo hrt hg0
  refine ⟨e1, ?_, e3, e4, e5⟩
  rw [e2]
  apply wrap_congr
  obtain ⟨j, hj⟩ := wrap_sub_self_dvd (minI - n)
  refine ⟨1 - j, ?_⟩
  have : (1 : Int) + (kOf n : Int) + 1 - (n + 1) = kOf n + 1 - n := by ring
  rw [this, hknat]
  unfold maxI minI at *
  omega

/-- C3: running the compiled `1 n 0 do 1+ loop` leaves a single cell on
the parameter stack holding `wrap (n + 1)` — equal to `n + 1` whenever
`0 ≤ n < isize::MAX` — with no error and control returned to the caller. -/
theorem C3_do_loop (n : Int) (h0 : 0 ≤ n) (h1 : n ≤ maxI) :
    (MiniVM.runFuel (2 * kOf n + 4) (loopInit n)).sStack.len = 1 ∧
    (MiniVM.runFuel (2 * kOf n + 4) (loopInit n)).sStack.inner 0 = wrap (n + 1) ∧
    (n < maxI →
      (MiniVM.runFuel (2 * kOf n + 4) (loopInit n)).sStack.inner 0 = n + 1) ∧
    (MiniVM.runFuel (2 * kOf n + 4) (loopInit n)).lastError = none ∧
    (MiniVM.runFuel (2 * kOf n + 4) (loopInit n)).instructionPointer = 0 := by
  obtain ⟨e1, e2, e3, e4, e5⟩ := loopMain n
  refine ⟨e1, e2, ?_, e3, e4⟩
  intro hlt
  rw [e2]
  exact wrap_eq_of_mem _ (by unfold minI; omega) (by omega)

/-- At `n = isize::MAX` the final checked increment wraps: the program
leaves `isize::MIN`, not `n + 1`. -/
theorem C3_do_loop_counterexample :
    (MiniVM.runFuel (2 * kOf maxI + 4) (loopInit maxI)).sStack.inner 0 = minI ∧
    minI ≠ maxI + 1 := by
  obtain ⟨-, e2, -⟩ := loopMain maxI
  refine ⟨?_, by norm_num [minI, maxI]⟩
  rw [e2]
  norm_num [wrap, minI, maxI]

theorem C3_do_loop_witness :
    ((0 : Int) ≤ 5 ∧ (5 : Int) ≤ maxI ∧ (5 : Int) < maxI) ∧
    (MiniVM.runFuel (2 * kOf 5 + 4) (loopInit 5)).sStack.inner 0 = 6 := by
  refine ⟨⟨by norm_num, by norm_num [maxI], by norm_num [maxI]⟩, ?_⟩
  obtain ⟨-, -, h, -⟩ := C3_do_loop 5 (by norm_num) (by norm_num [maxI])
  have := h (by norm_num [maxI])
  rw [this]
  norm_num

/-! ## Claim C7 — `find` over the hash buckets -/

/-- A bucket chain as a list: starting at `w`, each element is a positive
in-bounds index whose header's `link` continues the chain, and the chain
ends at the terminator 0. -/
def isChain (wl : Wordlist) : Nat → List Nat → Bool
  | w, [] => w == 0
  | w, i :: rest =>
    w == i && decide (0 < i) && decide (i < wl.words.length) &&
      isChain wl (wl.words.getD i default).link rest

/-- The test `Core::find` applies to a header: visible, hash equal,
name equal up to ASCII case. -/
def findCond (wl : Wordlist) (ds : DataSpace) (h : Nat) (name : List Nat) (i : Nat) : Bool :=
  let wd := wl.words.getD i default
  !wd.hidden && (wd.hash == h) && eqIgnoreCase (ds.get_str wd.nfa) name

theorem isChain_mem (wl : Wordlist) :
    ∀ (l : List Nat) (w : Nat), isChain wl w l = true →
      ∀ i ∈ l, 0 < i ∧ i < wl.words.length := by
  intro l
  induction l with
  | nil => intro w _ i hi; cases hi
  | cons a rest ih =>
    intro w hc i hi
    rw [isChain] at hc
    simp only [Bool.and_eq_true, beq_iff_eq, decide_eq_true_eq] at hc
    obtain ⟨⟨⟨hw, h0⟩, hlt⟩, hrest⟩ := hc
    rcases List.mem_cons.mp hi with h | h
    · subst h; exact ⟨h0, hlt⟩
    · exact ih _ hrest i h

/-- Walking a chain with enough fuel is `List.find?` of the test over the
chain. -/
theorem findAux_chain (wl : Wordlist) (ds : DataSpace) (h : Nat) (name : List Nat) :
    ∀ (l : List Nat) (w fuel : Nat), isChain wl w l = true → l.length ≤ fuel →
      findAux wl ds h name fuel w = l.find? (findCond wl ds h name) := by
  intro l
  induction l with
  | nil =>
    intro w fuel hc _
    rw [isChain] at hc
    have hw : w = 0 := by simpa using hc
    subst hw
    cases fuel with
    | zero => rfl
    | succ f => rw [findAux, if_pos rfl]; rfl
  | cons a rest ih =>
    intro w fuel hc hf
    rw [isChain] at hc
    simp only [Bool.and_eq_true, beq_iff_eq, decide_eq_true_eq] at hc
    obtain ⟨⟨⟨hw, h0⟩, hlt⟩, hrest⟩ := hc
    subst hw
    cases fuel with
    | zero => simp at hf
    | succ f =>
      rw [findAux, if_neg (by omega)]
      by_cases hcond : ¬(wl.words.getD w default).hidden ∧
          (wl.words.getD w default).hash = h ∧
          eqIgnoreCase (ds.get_str (wl.words.getD w default).nfa) name
      · rw [if_pos hcond, List.find?_cons_of_pos _ (by
          simp only [findCond, Bool.and_eq_true, beq_iff_eq, Bool.not_eq_true']
          exact ⟨⟨by simpa using hcond.1, hcond.2.1⟩, hcond.2.2⟩)]
      · rw [if_neg hcond, List.find?_cons_of_neg _ (by
          intro hp
          apply hcond
          simp only [findCond, Bool.and_eq_true, beq_iff_eq, Bool.not_eq_true'] at hp
          exact ⟨by simpa using hp.1.1, hp.1.2, hp.2⟩)]
        exact ih _ f hrest (by simpa using Nat.le_of_succ_le_succ hf)

theorem toLowerByte_idem (b : Nat) : toLowerByte (toLowerByte b) = toLowerByte b := by
  unfold toLowerByte
  split_ifs <;> omega

theorem djb2_map_toLower (l : List Nat) : djb2 (l.map toLowerByte) = djb2 l := by
  unfold djb2
  rw [List.foldl_map]
  congr 1
  funext h c
  rw [toLowerByte_idem]

/-- Names equal up to ASCII case hash identically (DJB2 runs over the
lowercased bytes). -/
theorem djb2_eqIgnoreCase {a b : List Nat} (h : eqIgnoreCase a b = true) :
    djb2 a = djb2 b := by
  have hm : a.map toLowerByte = b.map toLowerByte := by
    simpa [eqIgnoreCase] using h
  rw [← djb2_map_toLower a, hm, djb2_map_toLower b]

/-- `find?` on a strictly descending list returns the greatest satisfying
element. -/
theorem find?_sorted_some (p : Nat → Bool) :
    ∀ (l : List Nat), l.Pairwise (fun a b => b < a) →
      ∀ i, (l.find? p = some i ↔
        (i ∈ l ∧ p i = true ∧ ∀ j ∈ l, i < j → p j = false)) := by
  intro l
  induction l with
  | nil => intro _ i; simp
  | cons a rest ih =>
    intro hs i
    have ha : ∀ b ∈ rest, b < a := fun b hb => (List.pairwise_cons.mp hs).1 b hb
    have ht := (List.pairwise_cons.mp hs).2
    cases hpa : p a with
    | true =>
      rw [List.find?_cons_of_pos _ hpa]
      constructor
      · intro he
        have hia : a = i := by simpa using he
        subst hia
        refine ⟨List.mem_cons_self a rest, hpa, ?_⟩
        intro j hj hij
        rcases List.mem_cons.mp hj with rfl | hjr
        · omega
        · exact absurd (ha j hjr) (by omega)
      · rintro ⟨hi, hpi, hmax⟩
        rcases List.mem_cons.mp hi with rfl | hir
        · rfl
        · exact absurd hpa (by simpa using hmax a (List.mem_cons_self a rest) (ha i hir))
    | false =>
      rw [List.find?_cons_of_neg _ (by simp [hpa])]
      rw [ih ht i]
      constructor
      · rintro ⟨hi, hpi, hmax⟩
        refine ⟨List.mem_cons_of_mem a hi, hpi, ?_⟩
        intro j hj hij
        rcases List.mem_cons.mp hj with rfl | hjr
        · exact hpa
        · exact hmax j hjr hij
      · rintro ⟨hi, hpi, hmax⟩
        rcases List.mem_cons.mp hi with rfl | hir
        · exact absurd hpi (by simp [hpa])
        · exact ⟨hir, hpi, fun j hj hij => hmax j (List.mem_cons_of_mem a hj) hij⟩

/-- C7: on a well-formed dictionary (the hash bucket of the searched name
walks, in strictly descending XT order, exactly the positive in-range
headers hashed to that bucket, and every header's stored hash is the DJB2
of its stored name), `find` returns the newest visible header whose name
equals the searched name up to ASCII case, and `none` exactly when no
positive-XT header matches.  The header with XT 0 is excluded: 0
terminates every chain. -/
theorem C7_find (wl : Wordlist) (ds : DataSpace) (s l : List Nat)
    (hchain : isChain wl (wl.buckets (djb2 s % BUCKET_SIZE)) l = true)
    (hlen : l.length ≤ wl.words.length)
    (hsort : l.Pairwise (fun a b => b < a))
    (hcomplete : ∀ j, j < wl.words.length → 0 < j →
      (wl.words.getD j default).hash % BUCKET_SIZE = djb2 s % BUCKET_SIZE → j ∈ l)
    (hhash : ∀ j, j < wl.words.length →
      (wl.words.getD j default).hash = djb2 (ds.get_str (wl.words.getD j default).nfa)) :
    (∀ i, find wl ds s = some i ↔
      (0 < i ∧ i < wl.words.length ∧
       (wl.words.getD i default).hidden = false ∧
       eqIgnoreCase (ds.get_str (wl.words.getD i default).nfa) s = true ∧
       ∀ j, j < wl.words.length → i < j →
         (wl.words.getD j default).hidden = false →
         eqIgnoreCase (ds.get_str (wl.words.getD j default).nfa) s = false))
    ∧ (find wl ds s = none ↔ ∀ i, i < wl.words.length → 0 < i →
        (wl.words.getD i default).hidden = false →
        eqIgnoreCase (ds.get_str (wl.words.getD i default).nfa) s = false) := by
  have hfind : find wl ds s = l.find? (findCond wl ds (djb2 s) s) :=
    findAux_chain wl ds (djb2 s) s l _ wl.words.length hchain hlen
  have hmem := isChain_mem wl l _ hchain
  have hin : ∀ j ∈ l, findCond wl ds (djb2 s) s j = true ↔
      ((wl.words.getD j default).hidden = false ∧
       eqIgnoreCase (ds.get_str (wl.words.getD j default).nfa) s = true) := by
    intro j hj
    obtain ⟨hj0, hjlt⟩ := hmem j hj
    simp only [findCond, Bool.and_eq_true, beq_iff_eq, Bool.not_eq_true']
    constructor
    · rintro ⟨⟨hh, -⟩, he⟩; exact ⟨hh, he⟩
    · rintro ⟨hh, he⟩
      exact ⟨⟨hh, (hhash j hjlt).trans (djb2_eqIgnoreCase he)⟩, he⟩
  have hmm : ∀ j, j < wl.words.length → 0 < j →
      (wl.words.getD j default).hidden = false →
      eqIgnoreCase (ds.get_str (wl.words.getD j default).nfa) s = true → j ∈ l := by
    intro j hjlt hj0 hh he
    exact hcomplete j hjlt hj0 (by rw [hhash j hjlt, djb2_eqIgnoreCase he])
  constructor
  · intro i
    rw [hfind, find?_sorted_some _ l hsort i]
    constructor
    · rintro ⟨hi, hpi, hmax⟩
      obtain ⟨hi0, hilt⟩ := hmem i hi
      obtain ⟨hh, he⟩ := (hin i hi).mp hpi
      refine ⟨hi0, hilt, hh, he, ?_⟩
      intro j hjlt hij hhj
      by_contra hej
      rw [Bool.not_eq_false] at hej
      have hjl : j ∈ l := hmm j hjlt (by omega) hhj hej
      have := hmax j hjl hij
      rw [(hin j hjl).mpr ⟨hhj, hej⟩] at this
      exact Bool.true_eq_false.mp this
    · rintro ⟨hi0, hilt, hh, he, hmax⟩
      have hil : i ∈ l := hmm i hilt hi0 hh he
      refine ⟨hil, (hin i hil).mpr ⟨hh, he⟩, ?_⟩
      intro j hjl hij
      obtain ⟨hj0, hjlt⟩ := hmem j hjl
      by_cases hhj : (wl.words.getD j default).hidden = false
      · have := hmax j hjlt hij hhj
        rw [Bool.eq_false_iff]
        intro hpj
        rw [(hin j hjl).mp hpj |>.2] at this
        exact Bool.true_eq_false.mp this
      · rw [Bool.eq_false_iff]
        intro hpj
        simp only [findCond, Bool.and_eq_true, beq_iff_eq, Bool.not_eq_true'] at hpj
        exact hhj hpj.1.1
  · rw [hfind, List.find?_eq_none]
    constructor
    · intro hnone i hilt hi0 hh
      rw [Bool.eq_false_iff]
      intro he
      have hil : i ∈ l := hmm i hilt hi0 hh he
      exact hnone i hil ((hin i hil).mpr ⟨hh, he⟩)
    · intro hall i hil
      obtain ⟨hi0, hilt⟩ := hmem i hil
      intro hpi
      obtain ⟨hh, he⟩ := (hin i hil).mp hpi
      rw [hall i hilt hi0 hh] at he
      exact Bool.false_ne_true he

/-- An all-zero data space: every stored string reads back as empty. -/
def dsBlank : DataSpace := { mem := fun _ => 0, len := 16, cap := 256 }

/-- A dictionary holding only the boot sentinel: the word with XT 0 and
the empty name (`add_core` starts with `add_primitive("", ...)`). -/
def wlSentinel : Wordlist :=
  Wordlist.push wordlist0 [] { nfa := BASE_ADDR + 32, dfa := 0 }

/-- A data space holding the counted strings "sq" (at `BASE`) and "SQ"
(at `BASE + 16`). -/
def dsSq : DataSpace :=
  { mem := wr (wr (wr (wr (lePut (lePut (fun _ => 0) 0 2 8) 16 2 8) 8 115) 9 113) 24 83) 25 81
    len := 32
    cap := 256 }

/-- Sentinel, then "sq" (XT 1), then a redefinition "SQ" (XT 2). -/
def wlSq : Wordlist :=
  ((wordlist0.push [] { nfa := BASE_ADDR + 100, dfa := 0 }).push
      [115, 113] { nfa := BASE_ADDR, dfa := 0 }).push
    [83, 81] { nfa := BASE_ADDR + 16, dfa := 0 }

theorem C7_find_counterexample :
    (wlSentinel.words.getD 0 default).hidden = false ∧
    eqIgnoreCase (dsBlank.get_str ((wlSentinel.words.getD 0 default).nfa)) [] = true ∧
    0 < wlSentinel.words.length ∧
    find wlSentinel dsBlank [] = none := by decide

theorem C7_find_witness :
    find wlSq dsSq [115, 113] = some 2 := by
  refine ((C7_find wlSq dsSq [115, 113] [2, 1] (by decide) (by decide) (by decide)
      (by decide) (by decide)).1 2).mpr ?_
  exact ⟨by decide, by decide, by decide, by decide, by decide⟩

/-! ## Claim C6 — `marker` / `unmark` round-trip -/

theorem compile_usize_spec (ds : DataSpace) (v : Nat) (h : ds.here + 8 ≤ ds.limit) :
    ∃ ds', ds.compile_usize v = some ds' ∧ ds'.len = ds.len + 8 ∧ ds'.cap = ds.cap ∧
      (∀ j, j < ds.len → ds'.mem j = ds.mem j) ∧
      leGet ds'.mem ds.len 8 = v % 2 ^ 64 := by
  refine ⟨{ ds with mem := lePut ds.mem ds.len v 8, len := ds.len + 8 },
    by rw [DataSpace.compile_usize, if_pos h], rfl, rfl, ?_, ?_⟩
  · intro j hj
    exact lePut_lower 8 j hj
  · show leGet (lePut ds.mem ds.len v 8) ds.len 8 = v % 2 ^ 64
    rw [leGet_lePut, pow256_eight]

theorem compileBytes_spec (s : List Nat) : ∀ ds : DataSpace,
    ds.here + s.length ≤ ds.limit →
    ∃ ds', ds.compileBytes s = some ds' ∧ ds'.len = ds.len + s.length ∧
      ds'.cap = ds.cap := by
  induction s with
  | nil => intro ds _; exact ⟨ds, rfl, by simp, rfl⟩
  | cons b rest ih =>
    intro ds hroom
    simp only [List.length_cons] at hroom
    have hlt : ds.here < ds.limit := by omega
    have hstep : ds.compile_u8 b =
        some { ds with mem := wr ds.mem ds.len (b % 256), len := ds.len + 1 } := by
      rw [DataSpace.compile_u8, if_pos hlt]
    set ds1 : DataSpace := { ds with mem := wr ds.mem ds.len (b % 256), len := ds.len + 1 }
      with hds1
    have hroom1 : ds1.here + rest.length ≤ ds1.limit := by
      have h1 : ds1.len = ds.len + 1 := by rw [hds1]
      have h2 : ds1.cap = ds.cap := by rw [hds1]
      simp only [DataSpace.here, DataSpace.limit] at hroom ⊢
      omega
    obtain ⟨ds', hrun, hlen, hcap⟩ := ih ds1 hroom1
    refine ⟨ds', ?_, ?_, ?_⟩
    · simp only [DataSpace.compileBytes, hstep, Option.bind_eq_bind, Option.some_bind]
      exact hrun
    · rw [hlen, hds1]
      simp only [List.length_cons]
      omega
    · simpa [hds1] using hcap
  
theorem compile_str_spec (ds : DataSpace) (s : List Nat)
    (h : ds.here + s.length + 8 ≤ ds.limit) :
    ∃ ds', ds.compile_str s = some (ds', ds.here) ∧
      ds'.len = ds.len + 8 + s.length ∧ ds'.cap = ds.cap := by
  obtain ⟨ds1, h1, hlen1, hcap1, hmem1, hget1⟩ := compile_usize_spec ds s.length (by omega)
  obtain ⟨ds2, h2, hlen2, hcap2⟩ := compileBytes_spec s ds1 (by
    have hh := h
    simp only [DataSpace.here, DataSpace.limit] at hh ⊢
    rw [hlen1, hcap1]
    omega)
  refine ⟨ds2, ?_, by omega, by omega⟩
  rw [DataSpace.compile_str, if_pos h]
  simp only [h1, Option.bind_eq_bind, Option.some_bind, h2]

theorem aligned_bounds (x : Nat) : x ≤ DataSpace.aligned x ∧ DataSpace.aligned x ≤ x + 7 := by
  unfold DataSpace.aligned
  omega

theorem align_spec (ds : DataSpace) (h : DataSpace.aligned ds.here ≤ ds.limit) :
    ∃ ds', ds.align = some ds' ∧ ds'.mem = ds.mem ∧ ds'.cap = ds.cap ∧
      ds'.len = DataSpace.aligned ds.here - BASE_ADDR ∧
      ds.len ≤ ds'.len ∧ ds'.len ≤ ds.len + 7 := by
  have hb := aligned_bounds ds.here
  have hhere : ds.here = BASE_ADDR + ds.len := rfl
  refine ⟨{ ds with len := DataSpace.aligned ds.here - BASE_ADDR }, ?_, rfl, rfl, rfl,
    by show ds.len ≤ DataSpace.aligned ds.here - BASE_ADDR; omega,
    by show DataSpace.aligned ds.here - BASE_ADDR ≤ ds.len + 7; omega⟩
  rw [DataSpace.align, DataSpace.set_here,
    if_pos ⟨show BASE_ADDR ≤ DataSpace.aligned ds.here from by omega, h⟩]

theorem getD_append_self {α : Type} [Inhabited α] :
    ∀ (l : List α) (a : α), (l ++ [a]).getD l.length default = a := by
  intro l a
  induction l with
  | nil => rfl
  | cons x t _ => simp

theorem pop_push {α : Type} (s : Stack α) (v : α) : ((s.push v).pop).1 = v := by
  show wr s.inner (((s.len + 1) % 256 + 255) % 256) v (((s.len + 1) % 256 + 255) % 256) = v
  rw [wr_same]

theorem pop2_push_push {α : Type} (s : Stack α) (a b : α) :
    (((s.push a).push b).pop2).1 = (a, b) := by
  have hlt : (s.len + 1) % 256 < 256 := Nat.mod_lt _ (by omega)
  simp only [Stack.push, Stack.pop2]
  rw [wr_same]
  rw [wr_other _ _ _ _ (by omega)]
  rw [show ((((s.len + 1) % 256 + 1) % 256 + 254) % 256)
      = (((s.len + 1) % 256 + 255) % 256) from by omega]
  rw [wr_same]

/-- Success path of `define`: with a non-empty name and room in the arena,
the name is compiled at the old `here`, the space is aligned, and a header
is appended; only the redefinition notice depends on the `find`. -/
theorem defineNamed_spec (vm : VM) (name : List Nat)
    (hname : name.map toLowerByte ≠ [])
    (hroom : vm.dataSpace.here + name.length + 23 ≤ vm.dataSpace.limit) :
    ∃ (ds2 : DataSpace) (vmR : VM),
      VM.defineNamed name vm = some { vmR with
        dataSpace := ds2
        wordlist := vmR.wordlist.push (name.map toLowerByte)
          { nfa := vm.dataSpace.here, dfa := ds2.here } } ∧
      vmR.dataSpace = vm.dataSpace ∧ vmR.wordlist = vm.wordlist ∧
      vmR.sStack = vm.sStack ∧
      ds2.cap = vm.dataSpace.cap ∧
      vm.dataSpace.len + 8 + name.length ≤ ds2.len ∧
      ds2.len ≤ vm.dataSpace.len + 15 + name.length := by
  have hL : (List.map toLowerByte name).length = name.length := List.length_map _ _
  have hlim : vm.dataSpace.limit = BASE_ADDR + vm.dataSpace.cap := rfl
  have hhere : vm.dataSpace.here = BASE_ADDR + vm.dataSpace.len := rfl
  obtain ⟨ds1, h1, hlen1, hcap1⟩ :=
    compile_str_spec vm.dataSpace (List.map toLowerByte name) (by omega)
  have hal := aligned_bounds ds1.here
  have hhere1 : ds1.here = BASE_ADDR + ds1.len := rfl
  obtain ⟨ds2, h2, hmem2, hcap2, hlen2, hge2, hle2⟩ := align_spec ds1 (by
    show DataSpace.aligned ds1.here ≤ BASE_ADDR + ds1.cap
    omega)
  set vmR : VM := (if (find vm.wordlist vm.dataSpace (List.map toLowerByte name)).isSome = true
    then { vm with outputBuffer := vm.outputBuffer ++ [List.map toLowerByte name] }
    else vm) with hvmR
  have hRds : vmR.dataSpace = vm.dataSpace := by rw [hvmR]; split <;> rfl
  have hRwl : vmR.wordlist = vm.wordlist := by rw [hvmR]; split <;> rfl
  have hRs : vmR.sStack = vm.sStack := by rw [hvmR]; split <;> rfl
  have hdef : VM.defineNamed name vm = some { vmR with
      dataSpace := ds2
      wordlist := vmR.wordlist.push (List.map toLowerByte name)
        { nfa := vm.dataSpace.here, dfa := ds2.here } } := by
    simp only [VM.defineNamed]
    rw [if_neg (show ¬((List.map toLowerByte name).isEmpty = true) from by simpa using hname)]
    rw [← hvmR, hRds, h1]
    simp only [Option.bind_eq_bind, Option.some_bind]
    rw [h2]
    simp only [Option.some_bind]
  exact ⟨ds2, vmR, hdef, hRds, hRwl, hRs, by omega, by omega, by omega⟩

/-- `=` on a stack whose two top cells are equal pushes TRUE (-1). -/
theorem equalsW_pop_top (vm : VM) (s0 : Stack Int) (a : Int)
    (hs : vm.sStack = (s0.push a).push a) : ((VM.equalsW vm).sStack.pop).1 = -1 := by
  have hp : (vm.sStack.pop2).1 = (a, a) := by rw [hs]; exact pop2_push_push s0 a a
  show ((vm.sStack.pop2).2.push
      (if (vm.sStack.pop2).1.2 = (vm.sStack.pop2).1.1 then -1 else 0)).pop.1 = -1
  rw [pop_push, hp]
  simp

/-- C6: defining a marker and executing it restores the dictionary entries,
`last` and the 64 bucket heads, and truncates the data space back to the
`here` captured before `marker` ran, so `here marker m  m here =` leaves
TRUE on the parameter stack. -/
theorem C6_marker (vm : VM) (name : List Nat)
    (hname : name.map toLowerByte ≠ [])
    (hroom : vm.dataSpace.here + name.length + 535 ≤ vm.dataSpace.limit)
    (hbuckets : ∀ i, i < BUCKET_SIZE → vm.wordlist.buckets i < 2 ^ 64)
    (hlast : vm.wordlist.last = vm.wordlist.words.length - 1) :
    ∃ (vm2 vm3 : VM),
      VM.markerNamed name (VM.hereW vm) = some vm2 ∧
      VM.unmarkAt vm2.wordlist.last vm2 = some vm3 ∧
      vm3.wordlist.words = vm.wordlist.words ∧
      vm3.wordlist.last = vm.wordlist.last ∧
      (∀ i, i < BUCKET_SIZE → vm3.wordlist.buckets i = vm.wordlist.buckets i) ∧
      vm3.dataSpace.here = vm.dataSpace.here ∧
      ((VM.equalsW (VM.hereW vm3)).sStack.pop).1 = -1 := by
  have hlim : vm.dataSpace.limit = BASE_ADDR + vm.dataSpace.cap := rfl
  have hhere : vm.dataSpace.here = BASE_ADDR + vm.dataSpace.len := rfl
  have hL : (List.map toLowerByte name).length = name.length := List.length_map _ _
  -- the marker word's define step, on the state with tempBuckets snapshotted
  set vm1 : VM := { VM.hereW vm with wordlist :=
    { (VM.hereW vm).wordlist with tempBuckets := (VM.hereW vm).wordlist.buckets } } with hvm1
  have h1ds : vm1.dataSpace = vm.dataSpace := rfl
  have h1wlw : vm1.wordlist.words = vm.wordlist.words := rfl
  have h1wlb : vm1.wordlist.buckets = vm.wordlist.buckets := rfl
  have h1wlt : vm1.wordlist.tempBuckets = vm.wordlist.buckets := rfl
  obtain ⟨ds2, vmR, hdef, hRds, hRwl, hRs, hcap2, hge2, hle2⟩ :=
    defineNamed_spec vm1 name hname (by
      show vm.dataSpace.here + name.length + 23 ≤ vm.dataSpace.limit
      omega)
  rw [h1ds] at hRds hcap2 hge2 hle2
  rw [show vm1.dataSpace.here = vm.dataSpace.here from rfl] at hdef
  set vmD : VM := { vmR with
    dataSpace := ds2
    wordlist := vmR.wordlist.push (List.map toLowerByte name)
      { nfa := vm.dataSpace.here, dfa := ds2.here } } with hvmD
  have hDds : vmD.dataSpace = ds2 := by rw [hvmD]
  have hDtb : vmD.wordlist.tempBuckets = vm.wordlist.buckets := by
    rw [hvmD]
    show (vmR.wordlist.push (List.map toLowerByte name)
      { nfa := vm.dataSpace.here, dfa := ds2.here }).tempBuckets = vm.wordlist.buckets
    rw [show (vmR.wordlist.push (List.map toLowerByte name)
        { nfa := vm.dataSpace.here, dfa := ds2.here }).tempBuckets
      = vmR.wordlist.tempBuckets from rfl, hRwl]
    exact h1wlt
  have hlim2 : ds2.limit = BASE_ADDR + vm.dataSpace.cap := by
    show BASE_ADDR + ds2.cap = BASE_ADDR + vm.dataSpace.cap
    omega
  obtain ⟨ds3, h3, hlen3, hcap3, hmem3, hget3⟩ :=
    compile_usize_spec ds2 vm.wordlist.last (by
      show BASE_ADDR + ds2.len + 8 ≤ ds2.limit
      rw [hlim2]
      omega)
  have hvlen : ((List.range BUCKET_SIZE).map vm.wordlist.buckets).length = 64 := by
    rw [List.length_map, List.length_range]
    rfl
  obtain ⟨ds4, h4, hlen4, hcap4, hlow4, hget4⟩ :=
    compileCells_spec ((List.range BUCKET_SIZE).map vm.wordlist.buckets) ds3 (by
      show BASE_ADDR + ds3.len
        + 8 * ((List.range BUCKET_SIZE).map vm.wordlist.buckets).length
        ≤ BASE_ADDR + ds3.cap
      rw [hvlen]
      omega)
  have hmk : VM.markerNamed name (VM.hereW vm) = some { vmD with dataSpace := ds4 } := by
    simp only [VM.markerNamed]
    rw [← hvm1, hdef]
    simp only [Option.bind_eq_bind, Option.some_bind]
    rw [show (VM.hereW vm).wordlist.last = vm.wordlist.last from rfl]
    rw [h3]
    simp only [Option.some_bind]
    rw [show (vmR.wordlist.push (List.map toLowerByte name)
        { nfa := vm.dataSpace.here, dfa := ds2.here }).tempBuckets
      = vmR.wordlist.tempBuckets from rfl]
    rw [hRwl, h1wlt, h4]
    simp only [Option.some_bind]
  set vm2F : VM := { vmD with dataSpace := ds4 } with hvm2F
  set wNew : Word := { link := vmR.wordlist.buckets (djb2 (List.map toLowerByte name) % BUCKET_SIZE)
                       hash := djb2 (List.map toLowerByte name)
                       nfa := vm.dataSpace.here
                       dfa := ds2.here } with hwNew
  have hwords2 : vm2F.wordlist.words = vmR.wordlist.words ++ [wNew] := rfl
  have hwp : vm2F.wordlist.last = vmR.wordlist.words.length := rfl
  have hw : vm2F.wordlist.words.getD vm2F.wordlist.last default = wNew := by
    rw [hwords2, hwp]
    exact getD_append_self _ _
  have hcap5 : ds4.cap = vm.dataSpace.cap := by omega
  have htr : ds4.truncate vm.dataSpace.here
      = some { ds4 with len := vm.dataSpace.here - BASE_ADDR } := by
    have hc1 : DataSpace.start ds4 ≤ vm.dataSpace.here := by
      show BASE_ADDR ≤ vm.dataSpace.here
      omega
    have hc2 : vm.dataSpace.here ≤ ds4.limit := by
      show vm.dataSpace.here ≤ BASE_ADDR + ds4.cap
      omega
    rw [DataSpace.truncate, DataSpace.set_here, if_pos ⟨hc1, hc2⟩]
  have hunm : VM.unmarkAt vm2F.wordlist.last vm2F = some { vm2F with
      dataSpace := { ds4 with len := vm.dataSpace.here - BASE_ADDR }
      wordlist := Wordlist.truncate
        { vm2F.wordlist with
          last := vm2F.dataSpace.get_usize wNew.dfa
          buckets := fun i =>
            if i < BUCKET_SIZE then vm2F.dataSpace.get_usize (wNew.dfa + 8 * (i + 1))
            else vm2F.wordlist.buckets i } vm2F.wordlist.last } := by
    simp only [VM.unmarkAt]
    rw [hw]
    rw [show wNew.nfa = vm.dataSpace.here from rfl]
    rw [htr]
    simp only [Option.some_bind]
    rfl
  set vm3F : VM := { vm2F with
      dataSpace := { ds4 with len := vm.dataSpace.here - BASE_ADDR }
      wordlist := Wordlist.truncate
        { vm2F.wordlist with
          last := vm2F.dataSpace.get_usize wNew.dfa
          buckets := fun i =>
            if i < BUCKET_SIZE then vm2F.dataSpace.get_usize (wNew.dfa + 8 * (i + 1))
            else vm2F.wordlist.buckets i } vm2F.wordlist.last } with hvm3F
  have hc_words : vm3F.wordlist.words = vm.wordlist.words := by
    have h0 : vm3F.wordlist.words = (vm2F.wordlist.words).take vm2F.wordlist.last := rfl
    rw [h0, hwords2, hwp, List.take_left, hRwl, h1wlw]
  have hc_last : vm3F.wordlist.last = vm.wordlist.last := by
    have h0 : vm3F.wordlist.last
        = ((vm2F.wordlist.words).take vm2F.wordlist.last).length - 1 := rfl
    rw [h0, hwords2, hwp, List.take_left, hRwl, h1wlw, hlast]
  have hc_here : vm3F.dataSpace.here = vm.dataSpace.here := by
    have h0 : vm3F.dataSpace.here = BASE_ADDR + (vm.dataSpace.here - BASE_ADDR) := rfl
    rw [h0]
    omega
  have hc_buckets : ∀ i, i < BUCKET_SIZE → vm3F.wordlist.buckets i = vm.wordlist.buckets i := by
    intro i hi
    have h0 : vm3F.wordlist.buckets i
        = if i < BUCKET_SIZE then vm2F.dataSpace.get_usize (wNew.dfa + 8 * (i + 1))
          else vm2F.wordlist.buckets i := rfl
    rw [h0, if_pos hi]
    rw [show vm2F.dataSpace = ds4 from rfl, show wNew.dfa = ds2.here from rfl]
    rw [DataSpace.get_usize]
    rw [show ds2.here + 8 * (i + 1) - BASE_ADDR = ds3.len + 8 * i from by
      show BASE_ADDR + ds2.len + 8 * (i + 1) - BASE_ADDR = ds3.len + 8 * i
      omega]
    have hi' : i < ((List.range BUCKET_SIZE).map vm.wordlist.buckets).length := by
      rw [hvlen]
      exact hi
    rw [hget4 i hi']
    have hv : ((List.range BUCKET_SIZE).map vm.wordlist.buckets).get ⟨i, hi'⟩
        = vm.wordlist.buckets i := by
      simp
    rw [hv, Nat.mod_eq_of_lt (hbuckets i hi)]
  have hs3 : vm3F.sStack = vm.sStack.push (wrap (Int.ofNat vm.dataSpace.here)) := by
    show vmR.sStack = _
    rw [hRs]
    rfl
  refine ⟨vm2F, vm3F, hmk, hunm, hc_words, hc_last, hc_buckets, hc_here, ?_⟩
  apply equalsW_pop_top _ vm.sStack (wrap (Int.ofNat vm.dataSpace.here))
  show vm3F.sStack.push (wrap (Int.ofNat vm3F.dataSpace.here)) = _
  rw [hs3, hc_here]

theorem C6_marker_witness :
    ∃ (vm2 vm3 : VM),
      VM.markerNamed [109] (VM.hereW baseVM) = some vm2 ∧
      VM.unmarkAt vm2.wordlist.last vm2 = some vm3 ∧
      vm3.wordlist.words = baseVM.wordlist.words ∧
      vm3.wordlist.last = baseVM.wordlist.last ∧
      (∀ i, i < BUCKET_SIZE → vm3.wordlist.buckets i = baseVM.wordlist.buckets i) ∧
      vm3.dataSpace.here = baseVM.dataSpace.here ∧
      ((VM.equalsW (VM.hereW vm3)).sStack.pop).1 = -1 :=
  C6_marker baseVM [109] (by decide) (by decide) (by decide) (by decide)

end RtForth
